import Mathlib

set_option maxRecDepth 100000

namespace Termcalc

/- computable rational arithmetic (Rat.add etc. are irreducible) -/

def qofN (n : ℕ) : ℚ := mkRat (Int.ofNat n) 1

def qofZ (z : ℤ) : ℚ := mkRat z 1

def qadd (a b : ℚ) : ℚ := mkRat (a.num * (b.den : ℤ) + b.num * (a.den : ℤ)) (a.den * b.den)

def qneg (a : ℚ) : ℚ := Rat.neg a

def qsub (a b : ℚ) : ℚ := qadd a (qneg b)

def qmul (a b : ℚ) : ℚ := mkRat (a.num * b.num) (a.den * b.den)

def qdiv (a b : ℚ) : ℚ := Rat.divInt (a.num * (b.den : ℤ)) ((a.den : ℤ) * b.num)

def qlt (a b : ℚ) : Bool := Rat.blt a b

def qle (a b : ℚ) : Bool := !Rat.blt b a

inductive Fmt where
  | dec
  | hex
  | bin
  | oct
deriving DecidableEq, Repr

inductive Val where
  | num (q : ℚ)
  | pinf
  | ninf
  | nan
deriving DecidableEq, Repr

def ratTrunc (q : ℚ) : ℤ :=
  if 0 ≤ q.num then ((q.num.natAbs / q.den : ℕ) : ℤ)
  else -((q.num.natAbs / q.den : ℕ) : ℤ)

def rne (x : ℚ) : ℕ :=
  let n := x.num.toNat / x.den
  let fr := qsub x (qofN n)
  if qlt fr (mkRat 1 2) then n
  else if qlt (mkRat 1 2) fr then n + 1
  else if n % 2 = 0 then n else n + 1

def qpow2 (e : ℤ) : ℚ :=
  if 0 ≤ e then mkRat (Int.ofNat (2 ^ e.toNat)) 1 else mkRat 1 (2 ^ (-e).toNat)

def qpow10 (e : ℤ) : ℚ :=
  if 0 ≤ e then mkRat (Int.ofNat (10 ^ e.toNat)) 1 else mkRat 1 (10 ^ (-e).toNat)

def qexp (b : ℚ) : ℕ → ℚ → ℤ → ℤ
  | 0, _, e => e
  | f + 1, a, e =>
    if qlt a (qofN 1) then qexp b f (qmul a b) (e - 1)
    else if qle b a then qexp b f (qdiv a b) (e + 1)
    else e

def rndFuel : ℕ := 1048576

/-- Overflow test: `m * 2 ^ (-sh) ≥ 2 ^ 1024`, i.e. `m ≥ 2 ^ (1024 + sh)`.
Since the rounded significand `m` never exceeds `2 ^ 53`, the comparison
only has to be performed when `1024 + sh < 54`. -/
def ovfl (m : ℕ) (sh : ℤ) : Bool :=
  let t : ℤ := 1024 + sh
  if t ≤ 0 then true
  else if t < 54 then decide (2 ^ t.toNat ≤ m)
  else false

def rndQ (q : ℚ) : Val :=
  if q.num = 0 then .num 0
  else
    let neg := q.num < 0
    let a := if neg then qneg q else q
    let e := qexp (qofN 2) rndFuel a 0
    let sh : ℤ := if (52 - e) ≤ 1074 then 52 - e else 1074
    let m := rne (qmul a (qpow2 sh))
    if m = 0 then .num 0
    else if ovfl m sh then (if neg then .ninf else .pinf)
    else
      let v : ℚ := qmul (qofN m) (qpow2 (-sh))
      .num (if neg then qneg v else v)

def rnd53 (n : ℕ) : Val := rndQ (qofN n)


/-! ## Undefined-behaviour / libm parameters -/

/-- Results the C source leaves undefined or host-dependent: out-of-range
float-to-integer conversions (`cvtU`, `cvtI`), native shifts by counts
outside `0..63` (`shlU`, `shrU`), `__builtin_clzll`/`__builtin_ctzll` at
zero (`clz0`, `ctz0`), and the libm transcendental functions and
non-integral powers (`lib1`, `lib2`). -/
structure CParams where
  cvtU : ℕ → Val → ℕ
  cvtI : Val → ℤ
  shlU : ℕ → ℤ → ℕ
  shrU : ℕ → ℤ → ℕ
  clz0 : ℕ
  ctz0 : ℕ
  lib1 : String → Val → Val
  lib2 : String → Val → Val → Val

/-- A fixed instantiation of the unspecified parameters (every theorem
instantiated at `ub0` provably does not consult them, or quantifies over
all parameter values instead). -/
def ub0 : CParams := ⟨fun _ _ => 0, fun _ => 0, fun _ _ => 0, fun _ _ => 0, 0, 0,
  fun _ _ => .nan, fun _ _ _ => .nan⟩

/-- Like `ub0` but out-of-range left shifts give 1: used to exhibit that a
result depends on behaviour the C source leaves undefined. -/
def ub1 : CParams := ⟨fun _ _ => 0, fun _ => 0, fun _ _ => 1, fun _ _ => 0, 0, 0,
  fun _ _ => .nan, fun _ _ _ => .nan⟩

/-- C cast of a double to an unsigned integer of width `bits`
(truncation toward zero; undefined outside `[0, 2^bits)`). -/
def toUN (u : CParams) (bits : ℕ) (v : Val) : ℕ :=
  match v with
  | .num q =>
    let t := ratTrunc q
    if 0 ≤ t then (if t.toNat < 2 ^ bits then t.toNat else u.cvtU bits v)
    else u.cvtU bits v
  | _ => u.cvtU bits v

/-- C cast `(uint64_t)v`. -/
def toU64 (u : CParams) (v : Val) : ℕ := toUN u 64 v

/-- C cast `(int)v` (32-bit signed; undefined outside the int range). -/
def toI32 (u : CParams) (v : Val) : ℤ :=
  match v with
  | .num q =>
    let t := ratTrunc q
    if -2147483648 ≤ t ∧ t < 2147483648 then t else u.cvtI v
  | _ => u.cvtI v

/-- C `l << r` on `uint64_t`: defined as shift modulo `2^64` for counts
`0..63`, undefined otherwise. -/
def cShl (u : CParams) (l : ℕ) (r : ℤ) : ℕ :=
  if 0 ≤ r ∧ r < 64 then (l * 2 ^ r.toNat) % 2 ^ 64 else u.shlU l r

/-- C `l >> r` on `uint64_t`: defined for counts `0..63`, undefined
otherwise. -/
def cShr (u : CParams) (l : ℕ) (r : ℤ) : ℕ :=
  if 0 ≤ r ∧ r < 64 then l / 2 ^ r.toNat else u.shrU l r

/-! ## Double arithmetic on `Val` -/

def qabs (q : ℚ) : ℚ := if q.num < 0 then qneg q else q

def qofZ2 (z : ℤ) : ℚ := mkRat z 1

def negV : Val → Val
  | .num q => .num (qneg q)
  | .pinf => .ninf
  | .ninf => .pinf
  | .nan => .nan

def addV : Val → Val → Val
  | .nan, _ => .nan
  | _, .nan => .nan
  | .pinf, .ninf => .nan
  | .ninf, .pinf => .nan
  | .pinf, _ => .pinf
  | _, .pinf => .pinf
  | .ninf, _ => .ninf
  | _, .ninf => .ninf
  | .num a, .num b => rndQ (qadd a b)

def subV : Val → Val → Val
  | .nan, _ => .nan
  | _, .nan => .nan
  | .pinf, .pinf => .nan
  | .ninf, .ninf => .nan
  | .pinf, _ => .pinf
  | .ninf, _ => .ninf
  | _, .pinf => .ninf
  | _, .ninf => .pinf
  | .num a, .num b => rndQ (qsub a b)

def mulV : Val → Val → Val
  | .nan, _ => .nan
  | _, .nan => .nan
  | .pinf, .pinf => .pinf
  | .pinf, .ninf => .ninf
  | .ninf, .pinf => .ninf
  | .ninf, .ninf => .pinf
  | .pinf, .num b => if b.num = 0 then .nan else if b.num < 0 then .ninf else .pinf
  | .num a, .pinf => if a.num = 0 then .nan else if a.num < 0 then .ninf else .pinf
  | .ninf, .num b => if b.num = 0 then .nan else if b.num < 0 then .pinf else .ninf
  | .num a, .ninf => if a.num = 0 then .nan else if a.num < 0 then .pinf else .ninf
  | .num a, .num b => rndQ (qmul a b)

def divV : Val → Val → Val
  | .nan, _ => .nan
  | _, .nan => .nan
  | .pinf, .pinf => .nan
  | .pinf, .ninf => .nan
  | .ninf, .pinf => .nan
  | .ninf, .ninf => .nan
  | .pinf, .num b => if b.num < 0 then .ninf else .pinf
  | .ninf, .num b => if b.num < 0 then .pinf else .ninf
  | .num _, .pinf => .num 0
  | .num _, .ninf => .num 0
  | .num a, .num b =>
    if b.num = 0 then
      (if a.num = 0 then .nan else if a.num < 0 then .ninf else .pinf)
    else rndQ (qdiv a b)

/-- C `fmod` (exact in IEEE arithmetic, hence no rounding step). -/
def fmodV : Val → Val → Val
  | .nan, _ => .nan
  | _, .nan => .nan
  | .pinf, _ => .nan
  | .ninf, _ => .nan
  | .num a, .pinf => .num a
  | .num a, .ninf => .num a
  | .num a, .num b =>
    if b.num = 0 then .nan
    else .num (qsub a (qmul (qofZ2 (ratTrunc (qdiv a b))) b))

def qpowN (a : ℚ) : ℕ → ℚ
  | 0 => qofN 1
  | n + 1 => qmul a (qpowN a n)

/-- C `pow`, following the C annex F special cases: `pow(x, ±0) = 1` for
every `x` (NaN included), `pow(+1, y) = 1` for every `y`, NaN
propagation otherwise, signed rules at infinities and zero bases;
integral exponents are computed exactly and rounded, non-integral powers
of positive bases come from the host libm (`lib2`). -/
def powV (u : CParams) (x y : Val) : Val :=
  if y = .num 0 then .num 1
  else if x = .num 1 then .num 1
  else
    match x, y with
    | .nan, _ => .nan
    | _, .nan => .nan
    | xx, .pinf =>
      (match xx with
       | .num a => if qlt (qabs a) (qofN 1) then .num 0
                   else if a.num = -1 ∧ a.den = 1 then .num 1 else .pinf
       | _ => .pinf)
    | xx, .ninf =>
      (match xx with
       | .num a => if qlt (qabs a) (qofN 1) then .pinf
                   else if a.num = -1 ∧ a.den = 1 then .num 1 else .num 0
       | _ => .num 0)
    | .pinf, .num e => if e.num < 0 then .num 0 else .pinf
    | .ninf, .num e =>
      if e.den = 1 ∧ e.num % 2 ≠ 0 then (if e.num < 0 then .num 0 else .ninf)
      else (if e.num < 0 then .num 0 else .pinf)
    | .num a, .num e =>
      if e.den = 1 then
        (if a.num = 0 then (if e.num < 0 then .pinf else .num 0)
         else if 0 ≤ e.num then rndQ (qpowN a e.num.toNat)
         else rndQ (qdiv (qofN 1) (qpowN a (-e.num).toNat)))
      else
        (if a.num < 0 then .nan else u.lib2 "pow" x y)

def fabsV : Val → Val
  | .num q => .num (qabs q)
  | .pinf => .pinf
  | .ninf => .pinf
  | .nan => .nan

def ratFloor (q : ℚ) : ℤ :=
  if 0 ≤ q.num then ((q.num.natAbs / q.den : ℕ) : ℤ)
  else -(((q.num.natAbs + q.den - 1) / q.den : ℕ) : ℤ)

def ratCeil (q : ℚ) : ℤ :=
  if 0 ≤ q.num then (((q.num.natAbs + q.den - 1) / q.den : ℕ) : ℤ)
  else -((q.num.natAbs / q.den : ℕ) : ℤ)

def floorV : Val → Val
  | .num q => .num (qofZ2 (ratFloor q))
  | .pinf => .pinf
  | .ninf => .ninf
  | .nan => .nan

def ceilV : Val → Val
  | .num q => .num (qofZ2 (ratCeil q))
  | .pinf => .pinf
  | .ninf => .ninf
  | .nan => .nan

/-- C `round`: nearest integer, halfway cases away from zero. -/
def roundV : Val → Val
  | .num q =>
    let a := qadd (qabs q) (mkRat 1 2)
    let n : ℕ := a.num.toNat / a.den
    .num (if q.num < 0 then qneg (qofN n) else qofN n)
  | .pinf => .pinf
  | .ninf => .ninf
  | .nan => .nan

/-- C `fmax`: if one operand is NaN, the other is returned. -/
def fmaxV : Val → Val → Val
  | .nan, y => y
  | x, .nan => x
  | .pinf, _ => .pinf
  | _, .pinf => .pinf
  | .ninf, y => y
  | x, .ninf => x
  | .num a, .num b => .num (if qlt a b then b else a)

/-- C `fmin`: if one operand is NaN, the other is returned. -/
def fminV : Val → Val → Val
  | .nan, y => y
  | x, .nan => x
  | .ninf, _ => .ninf
  | _, .ninf => .ninf
  | .pinf, y => y
  | x, .pinf => x
  | .num a, .num b => .num (if qlt a b then a else b)

/-- C `(double)(~(uint64_t)v)`. -/
def bnot64 (u : CParams) (v : Val) : Val := rnd53 (2 ^ 64 - 1 - toU64 u v)

/-- C `(uintN_t)~(uintN_t)v` converted back to double (`not8/not16/not32`). -/
def notN (u : CParams) (bits : ℕ) (v : Val) : Val :=
  rnd53 (2 ^ bits - 1 - toUN u bits v)

def popA : ℕ → ℕ → ℕ
  | 0, _ => 0
  | f + 1, n => if n = 0 then 0 else n % 2 + popA f (n / 2)

def log2A : ℕ → ℕ → ℕ
  | 0, _ => 0
  | f + 1, n => if n < 2 then 0 else 1 + log2A f (n / 2)

def ctzA : ℕ → ℕ → ℕ
  | 0, _ => 0
  | f + 1, n => if n % 2 = 0 then 1 + ctzA f (n / 2) else 0

/-! ## Tokenizer -/

/-- C `isspace` (ASCII). -/
def isSpaceC (c : Char) : Bool := c.toNat == 32 || (9 ≤ c.toNat && c.toNat ≤ 13)

/-- C `isdigit` (ASCII). -/
def isDigitC (c : Char) : Bool := 48 ≤ c.toNat && c.toNat ≤ 57

/-- C `isalpha` (ASCII). -/
def isAlphaC (c : Char) : Bool :=
  (65 ≤ c.toNat && c.toNat ≤ 90) || (97 ≤ c.toNat && c.toNat ≤ 122)

/-- C `isalnum` (ASCII). -/
def isAlnumC (c : Char) : Bool := isDigitC c || isAlphaC c

def isHexDigitC (c : Char) : Bool :=
  isDigitC c || (97 ≤ c.toNat && c.toNat ≤ 102) || (65 ≤ c.toNat && c.toNat ≤ 70)

def isOctDigitC (c : Char) : Bool := 48 ≤ c.toNat && c.toNat ≤ 55

def hexVal (c : Char) : ℕ :=
  if isDigitC c then c.toNat - 48
  else if 97 ≤ c.toNat then c.toNat - 87
  else c.toNat - 55

def digitsFold (base : ℕ) (ds : List Char) : ℕ :=
  ds.foldl (fun a c => base * a + hexVal c) 0

/-- `strtoull` overflow clamp to `ULLONG_MAX`. -/
def clamp64 (n : ℕ) : ℕ := if n < 2 ^ 64 then n else 2 ^ 64 - 1

/-- `strtoull` returns the negated value (modulo `2^64`) for a leading
minus sign. -/
def applySign (neg : Bool) (n : ℕ) : ℕ :=
  if neg then (2 ^ 64 - n % 2 ^ 64) % 2 ^ 64 else n

def takeSign : List Char → Bool × List Char
  | [] => (false, [])
  | c :: r =>
    if c = '+' then (false, r)
    else if c = '-' then (true, r)
    else (false, c :: r)

/-- Model of C `strtoull(s, &end, 16)` together with the caller's
`end == s` test: `none` means no conversion was performed.  Skips
whitespace, accepts an optional sign and an optional `0x`/`0X` prefix
(the prefix is only consumed when a hex digit follows; otherwise the
leading `0` alone is the subject sequence). -/
def strtoull16 (cs : List Char) : Option (ℕ × List Char) :=
  let cs1 := cs.dropWhile isSpaceC
  let sg := takeSign cs1
  match sg.2 with
  | c0 :: c :: r =>
    if c0 = '0' ∧ (c = 'x' ∨ c = 'X') then
      (if (r.takeWhile isHexDigitC).isEmpty then some (applySign sg.1 0, c :: r)
       else some (applySign sg.1 (clamp64 (digitsFold 16 (r.takeWhile isHexDigitC))),
                  r.dropWhile isHexDigitC))
    else
      (if ((c0 :: c :: r).takeWhile isHexDigitC).isEmpty then none
       else some (applySign sg.1 (clamp64 (digitsFold 16 ((c0 :: c :: r).takeWhile isHexDigitC))),
                  (c0 :: c :: r).dropWhile isHexDigitC))
  | other =>
    if (other.takeWhile isHexDigitC).isEmpty then none
    else some (applySign sg.1 (clamp64 (digitsFold 16 (other.takeWhile isHexDigitC))),
               other.dropWhile isHexDigitC)

/-- Model of C `strtoull(s, &end, 8)` with the `end == s` test. -/
def strtoull8 (cs : List Char) : Option (ℕ × List Char) :=
  let cs1 := cs.dropWhile isSpaceC
  let sg := takeSign cs1
  if (sg.2.takeWhile isOctDigitC).isEmpty then none
  else some (applySign sg.1 (clamp64 (digitsFold 8 (sg.2.takeWhile isOctDigitC))),
             sg.2.dropWhile isOctDigitC)

/-- Model of C `strtod` on input whose first characters are a digit, or a
dot followed by a digit (the only situations in which the source calls
it): digits, optional fraction, optional exponent; the exact decimal
value is rounded to the nearest double. -/
def strtodCore (cs : List Char) : Val × List Char :=
  let d1 := cs.takeWhile isDigitC
  let r1 := cs.dropWhile isDigitC
  let fr : List Char × List Char :=
    match r1 with
    | c :: r =>
      if c = '.' then (r.takeWhile isDigitC, r.dropWhile isDigitC)
      else ([], c :: r)
    | [] => ([], [])
  let d2 := fr.1
  let r2 := fr.2
  let ex : ℤ × List Char :=
    match r2 with
    | c :: r =>
      if c = 'e' ∨ c = 'E' then
        (let es := takeSign r
         let eds := es.2.takeWhile isDigitC
         if eds.isEmpty then (0, r2)
         else ((if es.1 then -(digitsFold 10 eds : ℤ) else (digitsFold 10 eds : ℤ)),
               es.2.dropWhile isDigitC))
      else (0, r2)
    | [] => (0, r2)
  let mant : ℚ := qmul (qofN (digitsFold 10 (d1 ++ d2))) (qpow10 (-(d2.length : ℤ)))
  (rndQ (qmul mant (qpow10 ex.1)), ex.2)

/-- The guard the C source places in front of its `strtod` call. -/
def decimalTry (cs : List Char) : Option (Val × List Char) :=
  match cs with
  | [] => none
  | c :: r =>
    if isDigitC c then some (strtodCore cs)
    else if c = '.' then
      (match r with
       | d :: _ => if isDigitC d then some (strtodCore cs) else none
       | [] => none)
    else none

/-- The manual shift-and-or loop of the `0b` dialect (wraps modulo
`2^64` like the C `uint64_t` accumulator). -/
def binScan : List Char → ℕ → ℕ × List Char
  | [], a => (a, [])
  | c :: cs, a =>
    if c = '0' ∨ c = '1' then binScan cs ((2 * a + (if c = '1' then 1 else 0)) % 2 ^ 64)
    else (a, c :: cs)

/-- C `parse_number`: `0x`/`0b`/`0o` dialects, then the decimal/scientific
fallback.  `none` leaves the cursor where it was (the C function resets
`p->pos = start`). -/
def parseNumber (cs : List Char) : Option (Val × List Char) :=
  match cs with
  | c1 :: c2 :: rest =>
    if c1 = '0' then
    if c2 = 'x' ∨ c2 = 'X' then
      (match strtoull16 rest with
       | some (v, r) => some (rnd53 v, r)
       | none => none)
    else if c2 = 'b' ∨ c2 = 'B' then
      (let sc := binScan rest 0
       some (rnd53 sc.1, sc.2))
    else if c2 = 'o' ∨ c2 = 'O' then
      (match strtoull8 rest with
       | some (v, r) => some (rnd53 v, r)
       | none => none)
    else decimalTry (c1 :: c2 :: rest)
    else decimalTry (c1 :: c2 :: rest)
  | _ => decimalTry cs

inductive Tok where
  | num (v : Val)
  | id (s : String)
  | op (c : Char)
  | lparen
  | rparen
  | tend
  | terr
deriving DecidableEq, Repr

/-- The identifier loop of `next_token`: consumes at most 31 characters
(`MAX_NAME - 1`); further identifier characters are left for the next
token. -/
def idTake : ℕ → List Char → List Char × List Char
  | _, [] => ([], [])
  | 0, cs => ([], cs)
  | n + 1, c :: cs =>
    if isAlnumC c ∨ c = '_' then
      (let p := idTake n cs
       (c :: p.1, p.2))
    else ([], c :: cs)

/-- C `next_token`: skip whitespace, then number, identifier, or
operator; unrecognized characters yield the error token. -/
def nextToken (cs0 : List Char) : Tok × List Char :=
  let cs := cs0.dropWhile isSpaceC
  match cs with
  | [] => (.tend, [])
  | c :: r =>
    match parseNumber cs with
    | some (v, rest) => (.num v, rest)
    | none =>
      if isAlphaC c ∨ c = '_' then
        (let p := idTake 31 cs
         (.id (String.mk p.1), p.2))
      else if c = '(' then (.lparen, r)
      else if c = ')' then (.rparen, r)
      else if c = '+' ∨ c = '-' ∨ c = '/' ∨ c = '%' ∨ c = '=' ∨ c = '&' ∨ c = '|' ∨
              c = '~' ∨ c = ',' then (.op c, r)
      else if c = '<' then
        (match r with
         | c2 :: r2 => if c2 = '<' then (.op 'L', r2) else (.terr, c2 :: r2)
         | [] => (.terr, []))
      else if c = '>' then
        (match r with
         | c2 :: r2 => if c2 = '>' then (.op 'R', r2) else (.terr, c2 :: r2)
         | [] => (.terr, []))
      else if c = '*' then
        (match r with
         | c2 :: r2 => if c2 = '*' then (.op '^', r2) else (.op '*', c2 :: r2)
         | [] => (.op '*', []))
      else if c = '^' then (.op '^', r)
      else (.terr, r)

/-! ## Variable storage -/

def lookupVar : List (String × Val) → String → Option Val
  | [], _ => none
  | (n, v) :: t, name => if n = name then some v else lookupVar t name

def PIconst : Val := rndQ (mkRat 314159265358979323846 100000000000000000000)

def Econst : Val := rndQ (mkRat 271828182845904523536 100000000000000000000)

/-- C `get_var`: user bindings first, then `pi`/`e`, the virtual `ans`
(value of the first stored binding, or 0), the byte units, otherwise a
diagnostic and NaN. -/
def get_var (vars : List (String × Val)) (name : String) : Val × List String :=
  match lookupVar vars name with
  | some v => (v, [])
  | none =>
    if name = "pi" ∨ name = "PI" then (PIconst, [])
    else if name = "e" ∨ name = "E" then (Econst, [])
    else if name = "ans" then
      ((match vars with
        | [] => .num 0
        | (_, v) :: _ => v), [])
    else if name = "KiB" ∨ name = "kib" then (.num 1024, [])
    else if name = "MiB" ∨ name = "mib" then (.num 1048576, [])
    else if name = "GiB" ∨ name = "gib" then (.num 1073741824, [])
    else if name = "TiB" ∨ name = "tib" then (.num 1099511627776, [])
    else if name = "KB" ∨ name = "kb" then (.num 1000, [])
    else if name = "MB" ∨ name = "mb" then (.num 1000000, [])
    else if name = "GB" ∨ name = "gb" then (.num 1000000000, [])
    else if name = "TB" ∨ name = "tb" then (.num 1000000000000, [])
    else (.nan, ["undefined: " ++ name])

def replaceVar : List (String × Val) → String → Val → Option (List (String × Val))
  | [], _, _ => none
  | (n, w) :: t, name, v =>
    if n = name then some ((n, v) :: t)
    else
      match replaceVar t name v with
      | some t2 => some ((n, w) :: t2)
      | none => none

/-- `strncpy(.., MAX_NAME - 1)` keeps at most 31 characters of the name. -/
def take31 (s : String) : String := String.mk (s.data.take 31)

/-- C `set_var`: overwrite the first binding with a matching name in
place, else append when below the 64-entry cap, else drop silently. -/
def set_var (vars : List (String × Val)) (name : String) (v : Val) :
    List (String × Val) :=
  match replaceVar vars name v with
  | some vs => vs
  | none => if vars.length < 64 then vars ++ [(take31 name, v)] else vars

/-! ## Function registry -/

/-- C `call_func`: one-argument registry.  Returns the value, an optional
output-format effect, and diagnostics. -/
def call_func (u : CParams) (name : String) (arg : Val) :
    Val × Option Fmt × List String :=
  if name = "sin" then (u.lib1 "sin" arg, none, [])
  else if name = "cos" then (u.lib1 "cos" arg, none, [])
  else if name = "tan" then (u.lib1 "tan" arg, none, [])
  else if name = "asin" then (u.lib1 "asin" arg, none, [])
  else if name = "acos" then (u.lib1 "acos" arg, none, [])
  else if name = "atan" then (u.lib1 "atan" arg, none, [])
  else if name = "sinh" then (u.lib1 "sinh" arg, none, [])
  else if name = "cosh" then (u.lib1 "cosh" arg, none, [])
  else if name = "tanh" then (u.lib1 "tanh" arg, none, [])
  else if name = "exp" then (u.lib1 "exp" arg, none, [])
  else if name = "log" then (u.lib1 "log" arg, none, [])
  else if name = "log10" then (u.lib1 "log10" arg, none, [])
  else if name = "log2" then (u.lib1 "log2" arg, none, [])
  else if name = "sqrt" then (u.lib1 "sqrt" arg, none, [])
  else if name = "cbrt" then (u.lib1 "cbrt" arg, none, [])
  else if name = "abs" then (fabsV arg, none, [])
  else if name = "floor" then (floorV arg, none, [])
  else if name = "ceil" then (ceilV arg, none, [])
  else if name = "round" then (roundV arg, none, [])
  else if name = "ln" then (u.lib1 "log" arg, none, [])
  else if name = "bnot" then (bnot64 u arg, none, [])
  else if name = "not8" then (notN u 8 arg, none, [])
  else if name = "not16" then (notN u 16 arg, none, [])
  else if name = "not32" then (notN u 32 arg, none, [])
  else if name = "hex" then (arg, some .hex, [])
  else if name = "bin" then (arg, some .bin, [])
  else if name = "oct" then (arg, some .oct, [])
  else if name = "dec" then (arg, some .dec, [])
  else if name = "toKiB" ∨ name = "tokib" then (divV arg (.num 1024), none, [])
  else if name = "toMiB" ∨ name = "tomib" then (divV arg (.num 1048576), none, [])
  else if name = "toGiB" ∨ name = "togib" then (divV arg (.num 1073741824), none, [])
  else if name = "toTiB" ∨ name = "totib" then (divV arg (.num 1099511627776), none, [])
  else if name = "toKB" ∨ name = "tokb" then (divV arg (.num 1000), none, [])
  else if name = "toMB" ∨ name = "tomb" then (divV arg (.num 1000000), none, [])
  else if name = "toGB" ∨ name = "togb" then (divV arg (.num 1000000000), none, [])
  else if name = "toTB" ∨ name = "totb" then (divV arg (.num 1000000000000), none, [])
  else if name = "popcount" then (.num (qofN (popA 64 (toU64 u arg))), none, [])
  else if name = "clz" then
    (if arg = .num 0 then (.num 64, none, [])
     else
       (let t := toU64 u arg
        if t = 0 then (.num (qofN u.clz0), none, [])
        else (.num (qofN (63 - log2A 64 t)), none, [])))
  else if name = "ctz" then
    (if arg = .num 0 then (.num 64, none, [])
     else
       (let t := toU64 u arg
        if t = 0 then (.num (qofN u.ctz0), none, [])
        else (.num (qofN (ctzA 64 t)), none, [])))
  else (.nan, none, ["unknown function: " ++ name])

/-- C `call_func2`: two-argument registry (no diagnostics: an unknown
name silently yields NaN). -/
def call_func2 (u : CParams) (name : String) (a b : Val) : Val :=
  if name = "bxor" then rnd53 (Nat.xor (toU64 u a) (toU64 u b))
  else if name = "band" then rnd53 (Nat.land (toU64 u a) (toU64 u b))
  else if name = "bor" then rnd53 (Nat.lor (toU64 u a) (toU64 u b))
  else if name = "shl" then rnd53 (cShl u (toU64 u a) (toI32 u b))
  else if name = "shr" then rnd53 (cShr u (toU64 u a) (toI32 u b))
  else if name = "pow" then powV u a b
  else if name = "mod" then fmodV a b
  else if name = "atan2" then u.lib2 "atan2" a b
  else if name = "max" then fmaxV a b
  else if name = "min" then fminV a b
  else .nan

/-! ## Recursive-descent parser (fused with evaluation) -/

structure PState where
  tok : Tok
  rest : List Char
  fmt : Fmt
  diags : List String
deriving DecidableEq, Repr

def advance (st : PState) : PState :=
  let p := nextToken st.rest
  { st with tok := p.1, rest := p.2 }

/-- Parser modes: one for each C parse function, and one for the body of
each C `while` loop (suffix `L`). -/
inductive PMode where
  | expr
  | bitorP
  | bitorL
  | bitandP
  | bitandL
  | shiftP
  | shiftL
  | addP
  | addL
  | termP
  | termL
  | powerP
  | primaryP
deriving DecidableEq, Repr

/-- One step of the fused recursive-descent parser/evaluator.  `rec` is
the recursive entry (one fuel unit smaller); `left` is the accumulated
left operand of the loop modes and is ignored by the others.  Each mode
transcribes the body of the corresponding C function. -/
def parseStep (u : CParams) (vars : List (String × Val))
    (rec : PMode → Val → PState → Val × PState) :
    PMode → Val → PState → Val × PState := fun mode left st =>
  match mode with
  | .expr => rec .bitorP left st
  | .bitorP =>
    (let l := rec .bitandP left st
     rec .bitorL l.1 l.2)
  | .bitorL =>
    if st.tok = .op '|' then
      (let r := rec .bitandP left (advance st)
       rec .bitorL (rnd53 (Nat.lor (toU64 u left) (toU64 u r.1))) r.2)
    else (left, st)
  | .bitandP =>
    (let l := rec .shiftP left st
     rec .bitandL l.1 l.2)
  | .bitandL =>
    if st.tok = .op '&' then
      (let r := rec .shiftP left (advance st)
       rec .bitandL (rnd53 (Nat.land (toU64 u left) (toU64 u r.1))) r.2)
    else (left, st)
  | .shiftP =>
    (let l := rec .addP left st
     rec .shiftL l.1 l.2)
  | .shiftL =>
    if st.tok = .op 'L' ∨ st.tok = .op 'R' then
      (let r := rec .addP left (advance st)
       let l64 := toU64 u left
       let r32 := toI32 u r.1
       let left2 := rnd53 (if st.tok = .op 'L' then cShl u l64 r32 else cShr u l64 r32)
       rec .shiftL left2 r.2)
    else (left, st)
  | .addP =>
    (let l := rec .termP left st
     rec .addL l.1 l.2)
  | .addL =>
    if st.tok = .op '+' ∨ st.tok = .op '-' then
      (let r := rec .termP left (advance st)
       let left2 := if st.tok = .op '+' then addV left r.1 else subV left r.1
       rec .addL left2 r.2)
    else (left, st)
  | .termP =>
    (let l := rec .powerP left st
     rec .termL l.1 l.2)
  | .termL =>
    if st.tok = .op '*' ∨ st.tok = .op '/' ∨ st.tok = .op '%' then
      (let r := rec .powerP left (advance st)
       let left2 := if st.tok = .op '*' then mulV left r.1
                    else if st.tok = .op '/' then divV left r.1
                    else fmodV left r.1
       rec .termL left2 r.2)
    else (left, st)
  | .powerP =>
    (let l := rec .primaryP left st
     if l.2.tok = .op '^' then
       (let r := rec .powerP l.1 (advance l.2)
        (powV u l.1 r.1, r.2))
     else l)
  | .primaryP =>
    if st.tok = .op '-' ∨ st.tok = .op '+' then
      (let r := rec .primaryP left (advance st)
       (if st.tok = .op '-' then negV r.1 else r.1, r.2))
    else if st.tok = .op '~' then
      (let r := rec .primaryP left (advance st)
       (bnot64 u r.1, r.2))
    else if st.tok = .lparen then
      (let r := rec .expr left (advance st)
       if r.2.tok = .rparen then (r.1, advance r.2) else (r.1, r.2))
    else
    match st.tok with
    | .num v => (v, advance st)
    | .id name =>
      (let st1 := advance st
       if st1.tok = .lparen then
         (let a1 := rec .expr left (advance st1)
          if a1.2.tok = .op ',' then
            (let a2 := rec .expr left (advance a1.2)
             let st5 := if a2.2.tok = .rparen then advance a2.2 else a2.2
             (call_func2 u name a1.1 a2.1, st5))
          else
            (let st4 := if a1.2.tok = .rparen then advance a1.2 else a1.2
             let fr := call_func u name a1.1
             (fr.1, { st4 with
                        fmt := (match fr.2.1 with
                                | some ff => ff
                                | none => st4.fmt),
                        diags := st4.diags ++ fr.2.2 })))
       else
         (let gv := get_var vars name
          (gv.1, { st1 with diags := st1.diags ++ gv.2 })))
    | _ => (.nan, { st with diags := st.diags ++ ["syntax error"] })

/-- The fueled parser: `Nat.rec` is used directly so that applications
reduce step by step (out of fuel yields NaN; the fuel budget in
`evalFuel` makes that unreachable on real runs). -/
def parseGo (u : CParams) (vars : List (String × Val)) (fuel : ℕ) :
    PMode → Val → PState → Val × PState :=
  Nat.rec (motive := fun _ => PMode → Val → PState → Val × PState)
    (fun _ _ st => (.nan, st))
    (fun _ ih => parseStep u vars ih)
    fuel

/-- C `parse_expr`. -/
def parseExpr (u : CParams) (vars : List (String × Val)) (fuel : ℕ)
    (st : PState) : Val × PState :=
  parseGo u vars fuel .expr .nan st

/-! ## Environment-free checked interpreter

`parseGoChk` mirrors `parseGo` but runs without a variable environment
and without the `CParams` oracle: it is given a partial variable model
`gv` and answers `none` whenever the computation would consult a part of
the state it cannot see (an unmodelled variable, a libm call, an
out-of-range conversion or shift).  Its runs are fully concrete, so they
can be evaluated by `decide`; the soundness theorems below transfer a
`some` answer to `parseGo`/`evaluate` for *every* environment and every
`CParams`. -/

def omap {α β : Type} (f : α → β) : Option α → Option β
  | some a => some (f a)
  | none => none

def toUNChk (bits : ℕ) (v : Val) : Option ℕ :=
  match v with
  | .num q =>
    let t := ratTrunc q
    if 0 ≤ t then (if t.toNat < 2 ^ bits then some t.toNat else none) else none
  | _ => none

def toI32Chk (v : Val) : Option ℤ :=
  match v with
  | .num q =>
    let t := ratTrunc q
    if -2147483648 ≤ t ∧ t < 2147483648 then some t else none
  | _ => none

def cShlChk (l : ℕ) (r : ℤ) : Option ℕ :=
  if 0 ≤ r ∧ r < 64 then some ((l * 2 ^ r.toNat) % 2 ^ 64) else none

def cShrChk (l : ℕ) (r : ℤ) : Option ℕ :=
  if 0 ≤ r ∧ r < 64 then some (l / 2 ^ r.toNat) else none

def powVChk (x y : Val) : Option Val :=
  if y = .num 0 then some (.num 1)
  else if x = .num 1 then some (.num 1)
  else
    match x, y with
    | .nan, _ => some .nan
    | _, .nan => some .nan
    | xx, .pinf =>
      some (match xx with
            | .num a => if qlt (qabs a) (qofN 1) then .num 0
                        else if a.num = -1 ∧ a.den = 1 then .num 1 else .pinf
            | _ => .pinf)
    | xx, .ninf =>
      some (match xx with
            | .num a => if qlt (qabs a) (qofN 1) then .pinf
                        else if a.num = -1 ∧ a.den = 1 then .num 1 else .num 0
            | _ => .num 0)
    | .pinf, .num e => some (if e.num < 0 then .num 0 else .pinf)
    | .ninf, .num e =>
      some (if e.den = 1 ∧ e.num % 2 ≠ 0 then (if e.num < 0 then .num 0 else .ninf)
            else (if e.num < 0 then .num 0 else .pinf))
    | .num a, .num e =>
      if e.den = 1 then
        some (if a.num = 0 then (if e.num < 0 then .pinf else .num 0)
              else if 0 ≤ e.num then rndQ (qpowN a e.num.toNat)
              else rndQ (qdiv (qofN 1) (qpowN a (-e.num).toNat)))
      else
        (if a.num < 0 then some .nan else none)

def bnot64Chk (v : Val) : Option Val :=
  omap (fun t => rnd53 (2 ^ 64 - 1 - t)) (toUNChk 64 v)

def call_funcChk (name : String) (arg : Val) :
    Option (Val × Option Fmt × List String) :=
  if name = "hex" then some (arg, some .hex, [])
  else if name = "bin" then some (arg, some .bin, [])
  else if name = "oct" then some (arg, some .oct, [])
  else if name = "dec" then some (arg, some .dec, [])
  else none

def call_func2Chk (_name : String) (_a _b : Val) : Option Val := none

def parseStepChk (gv : String → Option (Val × List String))
    (rec : PMode → Val → PState → Option (Val × PState)) :
    PMode → Val → PState → Option (Val × PState) := fun mode left st =>
  match mode with
  | .expr => rec .bitorP left st
  | .bitorP =>
    (match rec .bitandP left st with
     | none => none
     | some l => rec .bitorL l.1 l.2)
  | .bitorL =>
    if st.tok = .op '|' then
      (match rec .bitandP left (advance st) with
       | none => none
       | some r =>
         match toUNChk 64 left, toUNChk 64 r.1 with
         | some a, some b => rec .bitorL (rnd53 (Nat.lor a b)) r.2
         | _, _ => none)
    else some (left, st)
  | .bitandP =>
    (match rec .shiftP left st with
     | none => none
     | some l => rec .bitandL l.1 l.2)
  | .bitandL =>
    if st.tok = .op '&' then
      (match rec .shiftP left (advance st) with
       | none => none
       | some r =>
         match toUNChk 64 left, toUNChk 64 r.1 with
         | some a, some b => rec .bitandL (rnd53 (Nat.land a b)) r.2
         | _, _ => none)
    else some (left, st)
  | .shiftP =>
    (match rec .addP left st with
     | none => none
     | some l => rec .shiftL l.1 l.2)
  | .shiftL =>
    if st.tok = .op 'L' ∨ st.tok = .op 'R' then
      (match rec .addP left (advance st) with
       | none => none
       | some r =>
         match toUNChk 64 left, toI32Chk r.1 with
         | some l64, some r32 =>
           (match (if st.tok = .op 'L' then cShlChk l64 r32 else cShrChk l64 r32) with
            | some z => rec .shiftL (rnd53 z) r.2
            | none => none)
         | _, _ => none)
    else some (left, st)
  | .addP =>
    (match rec .termP left st with
     | none => none
     | some l => rec .addL l.1 l.2)
  | .addL =>
    if st.tok = .op '+' ∨ st.tok = .op '-' then
      (match rec .termP left (advance st) with
       | none => none
       | some r =>
         rec .addL (if st.tok = .op '+' then addV left r.1 else subV left r.1) r.2)
    else some (left, st)
  | .termP =>
    (match rec .powerP left st with
     | none => none
     | some l => rec .termL l.1 l.2)
  | .termL =>
    if st.tok = .op '*' ∨ st.tok = .op '/' ∨ st.tok = .op '%' then
      (match rec .powerP left (advance st) with
       | none => none
       | some r =>
         rec .termL (if st.tok = .op '*' then mulV left r.1
                     else if st.tok = .op '/' then divV left r.1
                     else fmodV left r.1) r.2)
    else some (left, st)
  | .powerP =>
    (match rec .primaryP left st with
     | none => none
     | some l =>
       if l.2.tok = .op '^' then
         (match rec .powerP l.1 (advance l.2) with
          | none => none
          | some r =>
            match powVChk l.1 r.1 with
            | some v => some (v, r.2)
            | none => none)
       else some l)
  | .primaryP =>
    if st.tok = .op '-' ∨ st.tok = .op '+' then
      (match rec .primaryP left (advance st) with
       | none => none
       | some r => some (if st.tok = .op '-' then negV r.1 else r.1, r.2))
    else if st.tok = .op '~' then
      (match rec .primaryP left (advance st) with
       | none => none
       | some r =>
         match bnot64Chk r.1 with
         | some b => some (b, r.2)
         | none => none)
    else if st.tok = .lparen then
      (match rec .expr left (advance st) with
       | none => none
       | some r => some (if r.2.tok = .rparen then (r.1, advance r.2) else (r.1, r.2)))
    else
    match st.tok with
    | .num v => some (v, advance st)
    | .id name =>
      (let st1 := advance st
       if st1.tok = .lparen then
         (match rec .expr left (advance st1) with
          | none => none
          | some a1 =>
            if a1.2.tok = .op ',' then
              (match rec .expr left (advance a1.2) with
               | none => none
               | some a2 =>
                 match call_func2Chk name a1.1 a2.1 with
                 | none => none
                 | some v2 => some (v2, if a2.2.tok = .rparen then advance a2.2 else a2.2))
            else
              (match call_funcChk name a1.1 with
               | none => none
               | some fr =>
                 (let st4 := if a1.2.tok = .rparen then advance a1.2 else a1.2
                  some (fr.1, { st4 with
                                  fmt := (match fr.2.1 with
                                          | some ff => ff
                                          | none => st4.fmt),
                                  diags := st4.diags ++ fr.2.2 }))))
       else
         (match gv name with
          | none => none
          | some gvr => some (gvr.1, { st1 with diags := st1.diags ++ gvr.2 })))
    | _ => some (.nan, { st with diags := st.diags ++ ["syntax error"] })

def parseGoChk (gv : String → Option (Val × List String)) (fuel : ℕ) :
    PMode → Val → PState → Option (Val × PState) :=
  Nat.rec (motive := fun _ => PMode → Val → PState → Option (Val × PState))
    (fun _ _ st => some (.nan, st))
    (fun _ ih => parseStepChk gv ih)
    fuel

/-- The all-unknown variable model (for expressions without variable
references). -/
def gvNone : String → Option (Val × List String) := fun _ => none

/-! ## Top level -/

structure EvalOut where
  val : Val
  vars : List (String × Val)
  fmt : Fmt
  diags : List String
deriving DecidableEq, Repr

/-- Fuel bound: the descent chain spends at most 16 fuel units before
consuming a character, and every loop iteration and recursion consumes
at least one character of the remaining input. -/
def evalFuel (cs : List Char) : ℕ := 16 * cs.length + 128

/-- C `evaluate`: resets the output-format flag to Decimal (the `fmt0`
argument models the flag value left over from earlier evaluations and is
deliberately overwritten), detects `name = expr` by speculative
one-token lookahead with rollback, otherwise parses a plain expression. -/
def evaluate (u : CParams) (vars : List (String × Val)) (fmt0 : Fmt)
    (s : String) : EvalOut :=
  let cs := s.data
  let fmt1 : Fmt := .dec
  let p0 := nextToken cs
  let st0 : PState := ⟨p0.1, p0.2, fmt1, []⟩
  match p0.1 with
  | .id name =>
    (let p1 := nextToken p0.2
     if p1.1 = .op '=' then
       (let p2 := nextToken p1.2
        let res := parseExpr u vars (evalFuel cs) ⟨p2.1, p2.2, fmt1, []⟩
        ⟨res.1, set_var vars name res.1, res.2.fmt, res.2.diags⟩)
     else
       (let res := parseExpr u vars (evalFuel cs) st0
        ⟨res.1, vars, res.2.fmt, res.2.diags⟩))
  | _ =>
    (let res := parseExpr u vars (evalFuel cs) st0
     ⟨res.1, vars, res.2.fmt, res.2.diags⟩)

/-- Environment-free mirror of `evaluate` (assignments answer `none`:
they would touch the binding collection). -/
def evaluateChk (gv : String → Option (Val × List String)) (s : String) :
    Option (Val × Fmt × List String) :=
  let cs := s.data
  let p0 := nextToken cs
  let st0 : PState := ⟨p0.1, p0.2, .dec, []⟩
  match p0.1 with
  | .id _ =>
    (let p1 := nextToken p0.2
     if p1.1 = .op '=' then none
     else
       match parseGoChk gv (evalFuel cs) .expr .nan st0 with
       | none => none
       | some res => some (res.1, res.2.fmt, res.2.diags))
  | _ =>
    match parseGoChk gv (evalFuel cs) .expr .nan st0 with
    | none => none
    | some res => some (res.1, res.2.fmt, res.2.diags)

/-! ## Output formatting -/

def digitChar (n : ℕ) : Char := Char.ofNat (if n < 10 then 48 + n else 55 + n)

def natToBase (b : ℕ) : ℕ → ℕ → List Char → List Char
  | 0, _, acc => acc
  | f + 1, n, acc => if n = 0 then acc else natToBase b f (n / b) (digitChar (n % b) :: acc)

def natStr (b : ℕ) (n : ℕ) : String :=
  if n = 0 then "0" else String.mk (natToBase b 128 n [])

def intDecStr (z : ℤ) : String :=
  if z < 0 then "-" ++ natStr 10 z.natAbs else natStr 10 z.natAbs

/-- The buffer-filling loop of C `print_binary` (at most 64 iterations,
bounded by the buffer index). -/
def binBuf : ℕ → ℕ → List Char → List Char
  | 0, _, acc => acc
  | i + 1, v, acc =>
    if v = 0 then acc else binBuf i (v / 2) ((if v % 2 = 1 then '1' else '0') :: acc)

/-- C `print_binary`. -/
def print_binary (v : ℕ) : String :=
  if v = 0 then "0b0" else "0b" ++ String.mk (binBuf 64 v [])

def stripZeros (l : List Char) : List Char :=
  (l.reverse.dropWhile (fun c => c == '0')).reverse

def natDecDigits (n : ℕ) : List Char :=
  if n = 0 then ['0'] else natToBase 10 128 n []

def expStr (e : ℤ) : String :=
  let a := e.natAbs
  (if e < 0 then "-" else "+") ++ (if a < 10 then "0" ++ natStr 10 a else natStr 10 a)

/-- Model of `printf("%.12g", x)` for a finite nonzero double: round to
12 significant decimal digits (nearest, ties to even), strip trailing
zeros, choose fixed or scientific form by the C `%g` exponent rule. -/
def g12 (q : ℚ) : String :=
  if q.num = 0 then "0"
  else
    let neg := q.num < 0
    let a := qabs q
    let e0 := qexp (qofN 10) rndFuel a 0
    let m0 := rne (qmul a (qpow10 (11 - e0)))
    let m := if m0 = 10 ^ 12 then 10 ^ 11 else m0
    let e := if m0 = 10 ^ 12 then e0 + 1 else e0
    let ds := stripZeros (natDecDigits m)
    let body :=
      if e < -4 ∨ 12 ≤ e then
        (match ds with
         | [] => "0"
         | d :: [] => String.mk [d] ++ "e" ++ expStr e
         | d :: rest => String.mk [d] ++ "." ++ String.mk rest ++ "e" ++ expStr e)
      else if 0 ≤ e then
        (let k := ds.length
         let en := e.toNat
         if k ≤ en + 1 then String.mk (ds ++ List.replicate (en + 1 - k) '0')
         else String.mk (ds.take (en + 1)) ++ "." ++ String.mk (ds.drop (en + 1)))
      else "0." ++ String.mk (List.replicate ((-e).toNat - 1) '0' ++ ds)
    (if neg then "-" else "") ++ body

/-- C `print_result`: silent on NaN; hex/bin/oct truncate to `uint64_t`;
decimal prints integral values below `1e15` as plain integers and
everything else through `%.12g`. -/
def print_result (u : CParams) (fmt : Fmt) (v : Val) : Option String :=
  match v with
  | .nan => none
  | _ =>
    match fmt with
    | .hex => some ("0x" ++ natStr 16 (toU64 u v))
    | .bin => some (print_binary (toU64 u v))
    | .oct => some ("0o" ++ natStr 8 (toU64 u v))
    | .dec =>
      match v with
      | .pinf => some "inf"
      | .ninf => some "-inf"
      | .nan => none
      | .num q =>
        if qlt (qabs q) (qofN 1000000000000000) ∧ q = qofZ2 (ratFloor q) then
          some (intDecStr q.num)
        else some (g12 q)

end Termcalc

namespace Termcalc

/-! ## Soundness of the checked interpreter -/

theorem toUN_of_chk (u : CParams) (bits : ℕ) (v : Val) (n : ℕ)
    (h : toUNChk bits v = some n) : toUN u bits v = n := by
  cases v with
  | num q =>
    simp only [toUNChk, toUN] at h ⊢
    split_ifs at h ⊢ <;> simp_all
  | pinf => simp [toUNChk] at h
  | ninf => simp [toUNChk] at h
  | nan => simp [toUNChk] at h

theorem toI32_of_chk (u : CParams) (v : Val) (n : ℤ)
    (h : toI32Chk v = some n) : toI32 u v = n := by
  cases v with
  | num q =>
    simp only [toI32Chk, toI32] at h ⊢
    split_ifs at h ⊢ <;> simp_all
  | pinf => simp [toI32Chk] at h
  | ninf => simp [toI32Chk] at h
  | nan => simp [toI32Chk] at h

theorem cShl_of_chk (u : CParams) (l : ℕ) (r : ℤ) (n : ℕ)
    (h : cShlChk l r = some n) : cShl u l r = n := by
  simp only [cShlChk, cShl] at h ⊢ <;> split_ifs at h ⊢ <;> simp_all

theorem cShr_of_chk (u : CParams) (l : ℕ) (r : ℤ) (n : ℕ)
    (h : cShrChk l r = some n) : cShr u l r = n := by
  simp only [cShrChk, cShr] at h ⊢ <;> split_ifs at h ⊢ <;> simp_all

theorem powV_of_chk (u : CParams) (x y v : Val)
    (h : powVChk x y = some v) : powV u x y = v := by
  cases x <;> cases y <;>
    simp only [powVChk, powV] at h ⊢ <;> split_ifs at h ⊢ <;> simp_all

theorem bnot64_of_chk (u : CParams) (x b : Val)
    (h : bnot64Chk x = some b) : bnot64 u x = b := by
  rcases hx : toUNChk 64 x with _ | t
  · rw [bnot64Chk, hx] at h
    exact absurd h (by simp [omap])
  · rw [bnot64Chk, hx] at h
    rw [bnot64, toU64, toUN_of_chk u 64 x t hx]
    simpa [omap] using h

end Termcalc

namespace Termcalc

theorem toU64_of_chk (u : CParams) (v : Val) (n : ℕ)
    (h : toUNChk 64 v = some n) : toU64 u v = n := toUN_of_chk u 64 v n h

theorem omap_sound {α β : Type} (chk : Option α) (real : α) (f : α → β) (res : β)
    (hs : ∀ a, chk = some a → real = a)
    (h : omap f chk = some res) : f real = res := by
  rcases hx : chk with _ | a
  · rw [hx] at h
    exact absurd h (by simp [omap])
  · rw [hx] at h
    rw [hs a hx]
    simpa [omap] using h

theorem call_func_of_chk (u : CParams) (name : String) (arg : Val)
    (res : Val × Option Fmt × List String)
    (h : call_funcChk name arg = some res) : call_func u name arg = res := by
  by_cases h1 : name = "hex"
  · subst h1
    have hh : call_funcChk "hex" arg = some (arg, some .hex, []) := rfl
    rw [hh] at h
    rw [← Option.some.inj h]
    rfl
  by_cases h2 : name = "bin"
  · subst h2
    have hh : call_funcChk "bin" arg = some (arg, some .bin, []) := rfl
    rw [hh] at h
    rw [← Option.some.inj h]
    rfl
  by_cases h3 : name = "oct"
  · subst h3
    have hh : call_funcChk "oct" arg = some (arg, some .oct, []) := rfl
    rw [hh] at h
    rw [← Option.some.inj h]
    rfl
  by_cases h4 : name = "dec"
  · subst h4
    have hh : call_funcChk "dec" arg = some (arg, some .dec, []) := rfl
    rw [hh] at h
    rw [← Option.some.inj h]
    rfl
  · simp [call_funcChk, h1, h2, h3, h4] at h

theorem call_func2_of_chk (u : CParams) (name : String) (a b : Val)
    (res : Val)
    (h : call_func2Chk name a b = some res) : call_func2 u name a b = res := by
  simp [call_func2Chk] at h

theorem parseGo_zero (u : CParams) (vars : List (String × Val)) :
    parseGo u vars 0 = fun _ _ st => (Val.nan, st) := rfl

theorem parseGo_succ (u : CParams) (vars : List (String × Val)) (f : ℕ) :
    parseGo u vars (f + 1) = parseStep u vars (parseGo u vars f) := rfl

theorem parseGoChk_zero (gv : String → Option (Val × List String)) :
    parseGoChk gv 0 = fun _ _ st => some (Val.nan, st) := rfl

theorem parseGoChk_succ (gv : String → Option (Val × List String)) (f : ℕ) :
    parseGoChk gv (f + 1) = parseStepChk gv (parseGoChk gv f) := rfl

/-- Soundness of the checked interpreter: a `some` answer is the answer
of the real parser in every environment consistent with the variable
model `gv` and for every choice of the undefined-behaviour parameters. -/
theorem parseGoChk_sound (gv : String → Option (Val × List String))
    (u : CParams) (vars : List (String × Val))
    (hgv : ∀ n r, gv n = some r → get_var vars n = r) :
    ∀ (fuel : ℕ) (mode : PMode) (left : Val) (st : PState) (res : Val × PState),
      parseGoChk gv fuel mode left st = some res →
      parseGo u vars fuel mode left st = res := by
  intro fuel
  induction fuel with
  | zero =>
    intro mode left st res h
    rw [parseGoChk_zero] at h
    rw [parseGo_zero]
    exact Option.some.inj h
  | succ f ih =>
    intro mode left st res h
    rw [parseGoChk_succ] at h
    rw [parseGo_succ]
    cases mode with
    | expr => exact ih .bitorP left st res h
    | bitorP =>
      rcases hl : parseGoChk gv f .bitandP left st with _ | l
      · simp [parseStepChk, hl] at h
      · simp only [parseStepChk, hl] at h
        have hl2 := ih .bitandP left st l hl
        simp only [parseStep, hl2]
        exact ih .bitorL l.1 l.2 res h
    | bitorL =>
      by_cases htok : st.tok = .op '|'
      · simp only [parseStepChk, if_pos htok] at h
        rcases hr : parseGoChk gv f .bitandP left (advance st) with _ | r
        · simp [hr] at h
        · simp only [hr] at h
          rcases ha : toUNChk 64 left with _ | a
          · simp [ha] at h
          · rcases hb : toUNChk 64 r.1 with _ | b
            · simp [ha, hb] at h
            · simp only [ha, hb] at h
              have hr2 := ih .bitandP left (advance st) r hr
              simp only [parseStep, if_pos htok, hr2,
                toU64_of_chk u left a ha, toU64_of_chk u r.1 b hb]
              exact ih .bitorL (rnd53 (Nat.lor a b)) r.2 res h
      · simp only [parseStepChk, if_neg htok] at h
        simp only [parseStep, if_neg htok]
        exact Option.some.inj h
    | bitandP =>
      rcases hl : parseGoChk gv f .shiftP left st with _ | l
      · simp [parseStepChk, hl] at h
      · simp only [parseStepChk, hl] at h
        have hl2 := ih .shiftP left st l hl
        simp only [parseStep, hl2]
        exact ih .bitandL l.1 l.2 res h
    | bitandL =>
      by_cases htok : st.tok = .op '&'
      · simp only [parseStepChk, if_pos htok] at h
        rcases hr : parseGoChk gv f .shiftP left (advance st) with _ | r
        · simp [hr] at h
        · simp only [hr] at h
          rcases ha : toUNChk 64 left with _ | a
          · simp [ha] at h
          · rcases hb : toUNChk 64 r.1 with _ | b
            · simp [ha, hb] at h
            · simp only [ha, hb] at h
              have hr2 := ih .shiftP left (advance st) r hr
              simp only [parseStep, if_pos htok, hr2,
                toU64_of_chk u left a ha, toU64_of_chk u r.1 b hb]
              exact ih .bitandL (rnd53 (Nat.land a b)) r.2 res h
      · simp only [parseStepChk, if_neg htok] at h
        simp only [parseStep, if_neg htok]
        exact Option.some.inj h
    | shiftP =>
      rcases hl : parseGoChk gv f .addP left st with _ | l
      · simp [parseStepChk, hl] at h
      · simp only [parseStepChk, hl] at h
        have hl2 := ih .addP left st l hl
        simp only [parseStep, hl2]
        exact ih .shiftL l.1 l.2 res h
    | shiftL =>
      by_cases htok : st.tok = .op 'L' ∨ st.tok = .op 'R'
      · simp only [parseStepChk, if_pos htok] at h
        rcases hr : parseGoChk gv f .addP left (advance st) with _ | r
        · simp [hr] at h
        · simp only [hr] at h
          rcases ha : toUNChk 64 left with _ | l64
          · simp [ha] at h
          · rcases hb : toI32Chk r.1 with _ | r32
            · simp [ha, hb] at h
            · simp only [ha, hb] at h
              have hr2 := ih .addP left (advance st) r hr
              by_cases hL : st.tok = .op 'L'
              · simp only [if_pos hL] at h
                rcases hz : cShlChk l64 r32 with _ | z
                · simp [hz] at h
                · simp only [hz] at h
                  simp only [parseStep, if_pos htok, if_pos hL, hr2,
                    toU64_of_chk u left l64 ha, toI32_of_chk u r.1 r32 hb,
                    cShl_of_chk u l64 r32 z hz]
                  exact ih .shiftL (rnd53 z) r.2 res h
              · simp only [if_neg hL] at h
                rcases hz : cShrChk l64 r32 with _ | z
                · simp [hz] at h
                · simp only [hz] at h
                  simp only [parseStep, if_pos htok, if_neg hL, hr2,
                    toU64_of_chk u left l64 ha, toI32_of_chk u r.1 r32 hb,
                    cShr_of_chk u l64 r32 z hz]
                  exact ih .shiftL (rnd53 z) r.2 res h
      · simp only [parseStepChk, if_neg htok] at h
        simp only [parseStep, if_neg htok]
        exact Option.some.inj h
    | addP =>
      rcases hl : parseGoChk gv f .termP left st with _ | l
      · simp [parseStepChk, hl] at h
      · simp only [parseStepChk, hl] at h
        have hl2 := ih .termP left st l hl
        simp only [parseStep, hl2]
        exact ih .addL l.1 l.2 res h
    | addL =>
      by_cases htok : st.tok = .op '+' ∨ st.tok = .op '-'
      · simp only [parseStepChk, if_pos htok] at h
        rcases hr : parseGoChk gv f .termP left (advance st) with _ | r
        · simp [hr] at h
        · simp only [hr] at h
          have hr2 := ih .termP left (advance st) r hr
          simp only [parseStep, if_pos htok, hr2]
          exact ih .addL (if st.tok = .op '+' then addV left r.1 else subV left r.1) r.2 res h
      · simp only [parseStepChk, if_neg htok] at h
        simp only [parseStep, if_neg htok]
        exact Option.some.inj h
    | termP =>
      rcases hl : parseGoChk gv f .powerP left st with _ | l
      · simp [parseStepChk, hl] at h
      · simp only [parseStepChk, hl] at h
        have hl2 := ih .powerP left st l hl
        simp only [parseStep, hl2]
        exact ih .termL l.1 l.2 res h
    | termL =>
      by_cases htok : st.tok = .op '*' ∨ st.tok = .op '/' ∨ st.tok = .op '%'
      · simp only [parseStepChk, if_pos htok] at h
        rcases hr : parseGoChk gv f .powerP left (advance st) with _ | r
        · simp [hr] at h
        · simp only [hr] at h
          have hr2 := ih .powerP left (advance st) r hr
          simp only [parseStep, if_pos htok, hr2]
          exact ih .termL (if st.tok = .op '*' then mulV left r.1
                           else if st.tok = .op '/' then divV left r.1
                           else fmodV left r.1) r.2 res h
      · simp only [parseStepChk, if_neg htok] at h
        simp only [parseStep, if_neg htok]
        exact Option.some.inj h
    | powerP =>
      rcases hl : parseGoChk gv f .primaryP left st with _ | l
      · simp [parseStepChk, hl] at h
      · simp only [parseStepChk, hl] at h
        have hl2 := ih .primaryP left st l hl
        by_cases hpow : l.2.tok = .op '^'
        · simp only [if_pos hpow] at h
          rcases hr : parseGoChk gv f .powerP l.1 (advance l.2) with _ | r
          · simp [hr] at h
          · simp only [hr] at h
            rcases hp : powVChk l.1 r.1 with _ | v
            · simp [hp] at h
            · simp only [hp] at h
              have hr2 := ih .powerP l.1 (advance l.2) r hr
              simp only [parseStep, hl2, if_pos hpow, hr2, powV_of_chk u l.1 r.1 v hp]
              exact Option.some.inj h
        · simp only [if_neg hpow] at h
          simp only [parseStep, hl2, if_neg hpow]
          exact Option.some.inj h
    | primaryP =>
      by_cases h1 : st.tok = .op '-' ∨ st.tok = .op '+'
      · simp only [parseStepChk, if_pos h1] at h
        rcases hr : parseGoChk gv f .primaryP left (advance st) with _ | r
        · simp [hr] at h
        · simp only [hr] at h
          have hr2 := ih .primaryP left (advance st) r hr
          simp only [parseStep, if_pos h1, hr2]
          exact Option.some.inj h
      · by_cases h2 : st.tok = .op '~'
        · simp only [parseStepChk, if_neg h1, if_pos h2] at h
          rcases hr : parseGoChk gv f .primaryP left (advance st) with _ | r
          · simp [hr] at h
          · simp only [hr] at h
            rcases hbn : bnot64Chk r.1 with _ | b
            · simp [hbn] at h
            · simp only [hbn] at h
              have hr2 := ih .primaryP left (advance st) r hr
              simp only [parseStep, if_neg h1, if_pos h2, hr2, bnot64_of_chk u r.1 b hbn]
              exact Option.some.inj h
        · by_cases h3 : st.tok = .lparen
          · simp only [parseStepChk, if_neg h1, if_neg h2, if_pos h3] at h
            rcases hr : parseGoChk gv f .expr left (advance st) with _ | r
            · simp [hr] at h
            · simp only [hr] at h
              have hr2 := ih .expr left (advance st) r hr
              simp only [parseStep, if_neg h1, if_neg h2, if_pos h3, hr2]
              exact Option.some.inj h
          · simp only [parseStepChk, if_neg h1, if_neg h2, if_neg h3] at h
            simp only [parseStep, if_neg h1, if_neg h2, if_neg h3]
            rcases hst : st.tok with v | name | c | _ | _ | _ | _
            · simp only [hst] at h ⊢
              exact Option.some.inj h
            · simp only [hst] at h ⊢
              by_cases hlp : (advance st).tok = .lparen
              · simp only [if_pos hlp] at h ⊢
                rcases ha1 : parseGoChk gv f .expr left (advance (advance st)) with _ | a1
                · simp [ha1] at h
                · simp only [ha1] at h
                  have ha12 := ih .expr left (advance (advance st)) a1 ha1
                  simp only [ha12]
                  by_cases hcm : a1.2.tok = .op ','
                  · simp only [if_pos hcm] at h ⊢
                    rcases ha2 : parseGoChk gv f .expr left (advance a1.2) with _ | a2
                    · simp [ha2] at h
                    · simp only [ha2] at h
                      rcases hc2 : call_func2Chk name a1.1 a2.1 with _ | v2
                      · simp [hc2] at h
                      · simp only [hc2] at h
                        have ha22 := ih .expr left (advance a1.2) a2 ha2
                        simp only [ha22, call_func2_of_chk u name a1.1 a2.1 v2 hc2]
                        exact Option.some.inj h
                  · simp only [if_neg hcm] at h ⊢
                    rcases hcf : call_funcChk name a1.1 with _ | fr
                    · simp [hcf] at h
                    · simp only [hcf] at h
                      simp only [call_func_of_chk u name a1.1 fr hcf]
                      exact Option.some.inj h
              · simp only [if_neg hlp] at h ⊢
                rcases hgv2 : gv name with _ | gvr
                · simp [hgv2] at h
                · simp only [hgv2] at h
                  simp only [hgv name gvr hgv2]
                  exact Option.some.inj h
            · simp only [hst] at h ⊢
              exact Option.some.inj h
            · simp only [hst] at h ⊢
              exact Option.some.inj h
            · simp only [hst] at h ⊢
              exact Option.some.inj h
            · simp only [hst] at h ⊢
              exact Option.some.inj h
            · simp only [hst] at h ⊢
              exact Option.some.inj h

end Termcalc

namespace Termcalc

/-- Evaluate-level transfer: a `some` answer of the environment-free
run is the result of `evaluate` in every consistent environment, for
every `CParams` choice and every leftover format-flag value. -/
theorem evaluateChk_sound (gv : String → Option (Val × List String))
    (u : CParams) (vars : List (String × Val)) (fmt0 : Fmt) (s : String)
    (hgv : ∀ n r, gv n = some r → get_var vars n = r)
    (v : Val) (fm : Fmt) (dg : List String)
    (h : evaluateChk gv s = some (v, fm, dg)) :
    evaluate u vars fmt0 s = ⟨v, vars, fm, dg⟩ := by
  have hs := parseGoChk_sound gv u vars hgv
  rcases hp0 : nextToken s.data with ⟨t0, r0⟩
  cases t0 with
  | id name =>
    simp only [evaluateChk, hp0] at h
    simp only [evaluate, hp0]
    rcases hp1 : nextToken r0 with ⟨t1, r1⟩
    simp only [hp1] at h ⊢
    by_cases heq : t1 = .op '='
    · simp [if_pos heq] at h
    · simp only [if_neg heq] at h ⊢
      generalize hres : parseGoChk gv (evalFuel s.data) .expr .nan ⟨Tok.id name, r0, Fmt.dec, []⟩ = pres at h
      cases pres with
      | none => simp at h
      | some res =>
        simp only [Option.some.injEq, Prod.mk.injEq] at h
        simp only [parseExpr, hs (evalFuel s.data) .expr .nan ⟨Tok.id name, r0, Fmt.dec, []⟩ res hres]
        rw [h.1, h.2.1, h.2.2]
  | num v0 =>
    simp only [evaluateChk, hp0] at h
    simp only [evaluate, hp0]
    generalize hres : parseGoChk gv (evalFuel s.data) .expr .nan ⟨Tok.num v0, r0, Fmt.dec, []⟩ = pres at h
    cases pres with
    | none => simp at h
    | some res =>
      simp only [Option.some.injEq, Prod.mk.injEq] at h
      simp only [parseExpr, hs (evalFuel s.data) .expr .nan ⟨Tok.num v0, r0, Fmt.dec, []⟩ res hres]
      rw [h.1, h.2.1, h.2.2]
  | op c =>
    simp only [evaluateChk, hp0] at h
    simp only [evaluate, hp0]
    generalize hres : parseGoChk gv (evalFuel s.data) .expr .nan ⟨Tok.op c, r0, Fmt.dec, []⟩ = pres at h
    cases pres with
    | none => simp at h
    | some res =>
      simp only [Option.some.injEq, Prod.mk.injEq] at h
      simp only [parseExpr, hs (evalFuel s.data) .expr .nan ⟨Tok.op c, r0, Fmt.dec, []⟩ res hres]
      rw [h.1, h.2.1, h.2.2]
  | lparen =>
    simp only [evaluateChk, hp0] at h
    simp only [evaluate, hp0]
    generalize hres : parseGoChk gv (evalFuel s.data) .expr .nan ⟨Tok.lparen, r0, Fmt.dec, []⟩ = pres at h
    cases pres with
    | none => simp at h
    | some res =>
      simp only [Option.some.injEq, Prod.mk.injEq] at h
      simp only [parseExpr, hs (evalFuel s.data) .expr .nan ⟨Tok.lparen, r0, Fmt.dec, []⟩ res hres]
      rw [h.1, h.2.1, h.2.2]
  | rparen =>
    simp only [evaluateChk, hp0] at h
    simp only [evaluate, hp0]
    generalize hres : parseGoChk gv (evalFuel s.data) .expr .nan ⟨Tok.rparen, r0, Fmt.dec, []⟩ = pres at h
    cases pres with
    | none => simp at h
    | some res =>
      simp only [Option.some.injEq, Prod.mk.injEq] at h
      simp only [parseExpr, hs (evalFuel s.data) .expr .nan ⟨Tok.rparen, r0, Fmt.dec, []⟩ res hres]
      rw [h.1, h.2.1, h.2.2]
  | tend =>
    simp only [evaluateChk, hp0] at h
    simp only [evaluate, hp0]
    generalize hres : parseGoChk gv (evalFuel s.data) .expr .nan ⟨Tok.tend, r0, Fmt.dec, []⟩ = pres at h
    cases pres with
    | none => simp at h
    | some res =>
      simp only [Option.some.injEq, Prod.mk.injEq] at h
      simp only [parseExpr, hs (evalFuel s.data) .expr .nan ⟨Tok.tend, r0, Fmt.dec, []⟩ res hres]
      rw [h.1, h.2.1, h.2.2]
  | terr =>
    simp only [evaluateChk, hp0] at h
    simp only [evaluate, hp0]
    generalize hres : parseGoChk gv (evalFuel s.data) .expr .nan ⟨Tok.terr, r0, Fmt.dec, []⟩ = pres at h
    cases pres with
    | none => simp at h
    | some res =>
      simp only [Option.some.injEq, Prod.mk.injEq] at h
      simp only [parseExpr, hs (evalFuel s.data) .expr .nan ⟨Tok.terr, r0, Fmt.dec, []⟩ res hres]
      rw [h.1, h.2.1, h.2.2]

end Termcalc

namespace Termcalc

theorem gvNone_ok (vars : List (String × Val)) :
    ∀ n r, gvNone n = some r → get_var vars n = r := by
  intro n r h
  simp [gvNone] at h

end Termcalc

namespace Termcalc

theorem parse_single_num_t (u : CParams) (vars : List (String × Val)) (f : ℕ)
    (v : Val) (fm : Fmt) (dg : List String) :
    parseGo u vars (f + 16) .expr .nan ⟨.num v, [], fm, dg⟩ =
      (v, ⟨.tend, [], fm, dg⟩) := rfl

end Termcalc

namespace Termcalc

/-! ## Lexer lemmas for the literal dialects -/

theorem takeWhile_all (p : Char → Bool) :
    ∀ l : List Char, (∀ c ∈ l, p c = true) → l.takeWhile p = l := by
  intro l h
  induction l with
  | nil => rfl
  | cons c t ih =>
    rw [List.takeWhile_cons]
    rw [h c (by simp)]
    simp [ih (fun d hd => h d (by simp [hd]))]

theorem dropWhile_all (p : Char → Bool) :
    ∀ l : List Char, (∀ c ∈ l, p c = true) → l.dropWhile p = [] := by
  intro l h
  induction l with
  | nil => rfl
  | cons c t ih =>
    rw [List.dropWhile_cons]
    rw [h c (by simp)]
    simp [ih (fun d hd => h d (by simp [hd]))]

theorem hex_not_space (c : Char) (h : isHexDigitC c = true) : isSpaceC c = false := by
  simp [isHexDigitC, isDigitC] at h
  simp [isSpaceC]
  omega

theorem hex_ne_plus (c : Char) (h : isHexDigitC c = true) : c ≠ '+' :=
  fun he => absurd (he ▸ h) (by decide)

theorem hex_ne_minus (c : Char) (h : isHexDigitC c = true) : c ≠ '-' :=
  fun he => absurd (he ▸ h) (by decide)

theorem hex_ne_x (c : Char) (h : isHexDigitC c = true) : c ≠ 'x' :=
  fun he => absurd (he ▸ h) (by decide)

theorem hex_ne_X (c : Char) (h : isHexDigitC c = true) : c ≠ 'X' :=
  fun he => absurd (he ▸ h) (by decide)

theorem takeSign_hex (d : Char) (t : List Char) (h : isHexDigitC d = true) :
    takeSign (d :: t) = (false, d :: t) := by
  rw [takeSign]
  rw [if_neg (hex_ne_plus d h), if_neg (hex_ne_minus d h)]

/-- `strtoull(s, &end, 16)` on a nonempty all-hex-digit subject consumes
it whole. -/
theorem strtoull16_digits (ds : List Char) (hne : ds ≠ [])
    (hh : ∀ c ∈ ds, isHexDigitC c = true) :
    strtoull16 ds = some (clamp64 (digitsFold 16 ds), []) := by
  match ds, hne with
  | d :: t, _ =>
    have hd := hh d (List.mem_cons_self d t)
    have hdrop : List.dropWhile isSpaceC (d :: t) = d :: t := by
      rw [List.dropWhile_cons, hex_not_space d hd]
      simp
    match t, hh with
    | [], hh =>
      have hone : ∀ c ∈ [d], isHexDigitC c = true := by
        intro c hc
        simp at hc
        subst hc
        exact hd
      simp only [strtoull16, hdrop, takeSign_hex d [] hd,
        takeWhile_all _ _ hone, dropWhile_all _ _ hone]
      simp [applySign]
    | e :: t2, hh =>
      have he := hh e (by simp)
      have hcond : ¬(d = '0' ∧ (e = 'x' ∨ e = 'X')) := by
        rintro ⟨_, hx | hx⟩
        · exact hex_ne_x e he hx
        · exact hex_ne_X e he hx
      simp only [strtoull16, hdrop, takeSign_hex d (e :: t2) hd]
      rw [if_neg hcond]
      simp only [takeWhile_all _ _ hh, dropWhile_all _ _ hh]
      have hne2 : (d :: e :: t2).isEmpty = false := rfl
      simp [hne2, applySign]

end Termcalc

namespace Termcalc

theorem oct_is_hex (c : Char) (h : isOctDigitC c = true) : isHexDigitC c = true := by
  simp [isOctDigitC] at h
  simp [isHexDigitC, isDigitC]
  omega

theorem oct_not_space (c : Char) (h : isOctDigitC c = true) : isSpaceC c = false := by
  simp [isOctDigitC] at h
  simp [isSpaceC]
  omega

theorem oct_ne_plus (c : Char) (h : isOctDigitC c = true) : c ≠ '+' :=
  fun he => absurd (he ▸ h) (by decide)

theorem oct_ne_minus (c : Char) (h : isOctDigitC c = true) : c ≠ '-' :=
  fun he => absurd (he ▸ h) (by decide)

/-- `strtoull(s, &end, 8)` on a nonempty all-octal-digit subject consumes
it whole. -/
theorem strtoull8_digits (ds : List Char) (hne : ds ≠ [])
    (hh : ∀ c ∈ ds, isOctDigitC c = true) :
    strtoull8 ds = some (clamp64 (digitsFold 8 ds), []) := by
  match ds, hne with
  | d :: t, _ =>
    have hd := hh d (List.mem_cons_self d t)
    have hdrop : List.dropWhile isSpaceC (d :: t) = d :: t := by
      rw [List.dropWhile_cons, oct_not_space d hd]
      simp
    have hsgn : takeSign (d :: t) = (false, d :: t) := by
      rw [takeSign]
      rw [if_neg (oct_ne_plus d hd), if_neg (oct_ne_minus d hd)]
    simp only [strtoull8, hdrop, hsgn, takeWhile_all _ _ hh, dropWhile_all _ _ hh]
    have hne2 : (d :: t).isEmpty = false := rfl
    simp [hne2, applySign]

theorem binScan_digits :
    ∀ (ds : List Char) (a : ℕ), (∀ c ∈ ds, c = '0' ∨ c = '1') →
      binScan ds a =
        (List.foldl (fun x c => (2 * x + (if c = '1' then 1 else 0)) % 2 ^ 64) a ds, []) := by
  intro ds
  induction ds with
  | nil => intro a _; rfl
  | cons c t ih =>
    intro a h
    have hc := h c (List.mem_cons_self c t)
    rw [binScan, if_pos hc, List.foldl_cons]
    exact ih _ (fun d hd => h d (List.mem_cons_of_mem c hd))

theorem digitsFold_from (b : ℕ) :
    ∀ (t : List Char) (a : ℕ),
      List.foldl (fun x c => b * x + hexVal c) a t =
        a * b ^ t.length + digitsFold b t := by
  intro t
  induction t with
  | nil => intro a; simp [digitsFold]
  | cons c r ih =>
    intro a
    have hc : digitsFold b (c :: r) = (b * 0 + hexVal c) * b ^ r.length + digitsFold b r := by
      rw [digitsFold, List.foldl_cons, ih (b * 0 + hexVal c)]
    rw [List.foldl_cons, ih (b * a + hexVal c), hc, List.length_cons]
    ring

theorem digitsFold_cons (b : ℕ) (c : Char) (t : List Char) :
    digitsFold b (c :: t) = hexVal c * b ^ t.length + digitsFold b t := by
  rw [digitsFold, List.foldl_cons, digitsFold_from b t (b * 0 + hexVal c)]
  ring_nf

theorem binFold_mod :
    ∀ (ds : List Char) (a : ℕ), a < 2 ^ 64 → (∀ c ∈ ds, c = '0' ∨ c = '1') →
      List.foldl (fun x c => (2 * x + (if c = '1' then 1 else 0)) % 2 ^ 64) a ds =
        (a * 2 ^ ds.length + digitsFold 2 ds) % 2 ^ 64 := by
  intro ds
  induction ds with
  | nil =>
    intro a ha _
    simp [digitsFold]
    omega
  | cons c t ih =>
    intro a ha h
    have hc := h c (List.mem_cons_self c t)
    have hv : (if c = '1' then 1 else 0) = hexVal c := by
      rcases hc with rfl | rfl <;> rfl
    have hlt : (2 * a + hexVal c) % 2 ^ 64 < 2 ^ 64 := Nat.mod_lt _ (by positivity)
    rw [List.foldl_cons, hv, ih _ hlt (fun d hd => h d (List.mem_cons_of_mem c hd))]
    rw [digitsFold_cons, List.length_cons]
    have h2 := ((Nat.mod_modEq (2 * a + hexVal c) (2 ^ 64)).mul_right
      (2 ^ t.length)).add_right (digitsFold 2 t)
    calc ((2 * a + hexVal c) % 2 ^ 64 * 2 ^ t.length + digitsFold 2 t) % 2 ^ 64
        = ((2 * a + hexVal c) * 2 ^ t.length + digitsFold 2 t) % 2 ^ 64 := h2
      _ = (a * 2 ^ (t.length + 1) + (hexVal c * 2 ^ t.length + digitsFold 2 t)) % 2 ^ 64 := by
          ring_nf

end Termcalc

namespace Termcalc

theorem parseNumber_hex (x : Char) (hx : x = 'x' ∨ x = 'X') (ds : List Char)
    (hne : ds ≠ []) (hh : ∀ c ∈ ds, isHexDigitC c = true) :
    parseNumber ('0' :: x :: ds) = some (rnd53 (clamp64 (digitsFold 16 ds)), []) := by
  rw [parseNumber, if_pos rfl, if_pos hx, strtoull16_digits ds hne hh]

theorem parseNumber_oct (x : Char) (hx : x = 'o' ∨ x = 'O') (ds : List Char)
    (hne : ds ≠ []) (hh : ∀ c ∈ ds, isOctDigitC c = true) :
    parseNumber ('0' :: x :: ds) = some (rnd53 (clamp64 (digitsFold 8 ds)), []) := by
  have hxb : ¬(x = 'x' ∨ x = 'X') := by
    rcases hx with rfl | rfl <;> decide
  have hbb : ¬(x = 'b' ∨ x = 'B') := by
    rcases hx with rfl | rfl <;> decide
  rw [parseNumber, if_pos rfl, if_neg hxb, if_neg hbb, if_pos hx,
    strtoull8_digits ds hne hh]

theorem parseNumber_bin (x : Char) (hx : x = 'b' ∨ x = 'B') (ds : List Char)
    (hh : ∀ c ∈ ds, c = '0' ∨ c = '1') (hlt : digitsFold 2 ds < 2 ^ 64) :
    parseNumber ('0' :: x :: ds) = some (rnd53 (digitsFold 2 ds), []) := by
  have hxb : ¬(x = 'x' ∨ x = 'X') := by
    rcases hx with rfl | rfl <;> decide
  rw [parseNumber, if_pos rfl, if_neg hxb, if_pos hx, binScan_digits ds 0 hh,
    binFold_mod ds 0 (by positivity) hh]
  simp only [Nat.zero_mul, Nat.zero_add]
  rw [Nat.mod_eq_of_lt hlt]

theorem nextToken_of_num (c : Char) (t : List Char) (v : Val) (r : List Char)
    (hsp : isSpaceC c = false)
    (hpn : parseNumber (c :: t) = some (v, r)) :
    nextToken (c :: t) = (.num v, r) := by
  rw [nextToken]
  rw [List.dropWhile_cons, hsp]
  simp only [Bool.false_eq_true, if_false]
  simp only [hpn]

theorem evalFuel_split (cs : List Char) : evalFuel cs = 16 * cs.length + 112 + 16 := by
  rw [evalFuel]

/-- `evaluate` on an input that lexes to a single number token. -/
theorem evaluate_single_num (u : CParams) (vars : List (String × Val)) (fmt0 : Fmt)
    (s : String) (v : Val)
    (h : nextToken s.data = (.num v, [])) :
    evaluate u vars fmt0 s = ⟨v, vars, .dec, []⟩ := by
  simp only [evaluate, h]
  rw [evalFuel_split, parseExpr, parse_single_num_t]

end Termcalc

namespace Termcalc

theorem dig_is_hex (c : Char) (h : isDigitC c = true) : isHexDigitC c = true := by
  simp [isHexDigitC, h]

theorem dig_not_space (c : Char) (h : isDigitC c = true) : isSpaceC c = false := by
  simp [isDigitC] at h
  simp [isSpaceC]
  omega

theorem takeWhile_append_all (p : Char → Bool) (l1 l2 : List Char)
    (h : ∀ c ∈ l1, p c = true) :
    (l1 ++ l2).takeWhile p = l1 ++ l2.takeWhile p := by
  induction l1 with
  | nil => simp
  | cons c t ih =>
    rw [List.cons_append, List.takeWhile_cons, h c (List.mem_cons_self c t)]
    simp [ih (fun d hd => h d (List.mem_cons_of_mem c hd))]

theorem dropWhile_append_all (p : Char → Bool) (l1 l2 : List Char)
    (h : ∀ c ∈ l1, p c = true) :
    (l1 ++ l2).dropWhile p = l2.dropWhile p := by
  induction l1 with
  | nil => simp
  | cons c t ih =>
    rw [List.cons_append, List.dropWhile_cons, h c (List.mem_cons_self c t)]
    simp [ih (fun d hd => h d (List.mem_cons_of_mem c hd))]

theorem qmul_pow10_zero (x : ℚ) : qmul x (qpow10 0) = x := by
  have h1 : qpow10 0 = mkRat 1 1 := rfl
  rw [h1, qmul]
  have h2 : (mkRat 1 1).num = 1 := rfl
  have h3 : (mkRat 1 1).den = 1 := rfl
  rw [h2, h3, Int.mul_one, Nat.mul_one, Rat.mkRat_self]

/-- `strtod` on a nonempty all-digit subject: the exact integer value,
rounded to double. -/
theorem strtodCore_digits (ds : List Char) (hd : ∀ c ∈ ds, isDigitC c = true) :
    strtodCore ds = (rndQ (qofN (digitsFold 10 ds)), []) := by
  have ht := takeWhile_all isDigitC ds hd
  have hdr := dropWhile_all isDigitC ds hd
  rw [strtodCore]
  simp only [ht, hdr]
  simp only [List.takeWhile_nil, List.dropWhile_nil, List.append_nil, List.length_nil]
  norm_num
  rw [qmul_pow10_zero, qmul_pow10_zero]

/-- `strtod` on `digits e digits`. -/
theorem strtodCore_sci (d1 d2 : List Char) (h2ne : d2 ≠ [])
    (hd1 : ∀ c ∈ d1, isDigitC c = true) (hd2 : ∀ c ∈ d2, isDigitC c = true) :
    strtodCore (d1 ++ 'e' :: d2) =
      (rndQ (qmul (qofN (digitsFold 10 d1)) (qpow10 (digitsFold 10 d2))), []) := by
  have hte : isDigitC 'e' = false := rfl
  have ht1 : (d1 ++ 'e' :: d2).takeWhile isDigitC = d1 := by
    rw [takeWhile_append_all _ _ _ hd1, List.takeWhile_cons, hte]
    simp
  have hdr1 : (d1 ++ 'e' :: d2).dropWhile isDigitC = 'e' :: d2 := by
    rw [dropWhile_append_all _ _ _ hd1, List.dropWhile_cons, hte]
    simp
  match d2, h2ne with
  | e2 :: t2, _ =>
    have he2 := hd2 e2 (List.mem_cons_self e2 t2)
    have hsgn : takeSign (e2 :: t2) = (false, e2 :: t2) := by
      rw [takeSign]
      rw [if_neg (hex_ne_plus e2 (dig_is_hex e2 he2)),
        if_neg (hex_ne_minus e2 (dig_is_hex e2 he2))]
    rw [strtodCore]
    simp only [ht1, hdr1]
    rw [if_neg (show ('e' : Char) ≠ '.' by decide)]
    simp only [if_pos (show ('e' : Char) = 'e' ∨ ('e' : Char) = 'E' from Or.inl rfl)]
    simp only [hsgn, takeWhile_all isDigitC (e2 :: t2) hd2,
      dropWhile_all isDigitC (e2 :: t2) hd2]
    have hne2 : (e2 :: t2).isEmpty = false := rfl
    simp only [hne2, Bool.false_eq_true, if_false, List.append_nil, List.length_nil]
    norm_num
    rw [qmul_pow10_zero]

end Termcalc

namespace Termcalc

theorem parseNumber_tail_decimal (c1 c2 : Char) (r : List Char)
    (h2 : isDigitC c2 = true ∨ c2 = 'e') :
    parseNumber (c1 :: c2 :: r) = decimalTry (c1 :: c2 :: r) := by
  have hx : ¬(c2 = 'x' ∨ c2 = 'X') := by
    rcases h2 with hd | rfl
    · rintro (rfl | rfl) <;> simp [isDigitC] at hd
    · decide
  have hb : ¬(c2 = 'b' ∨ c2 = 'B') := by
    rcases h2 with hd | rfl
    · rintro (rfl | rfl) <;> simp [isDigitC] at hd
    · decide
  have ho : ¬(c2 = 'o' ∨ c2 = 'O') := by
    rcases h2 with hd | rfl
    · rintro (rfl | rfl) <;> simp [isDigitC] at hd
    · decide
  by_cases hc0 : c1 = '0'
  · rw [parseNumber, if_pos hc0, if_neg hx, if_neg hb, if_neg ho]
  · rw [parseNumber, if_neg hc0]

theorem decimalTry_digit (c : Char) (t : List Char) (h : isDigitC c = true) :
    decimalTry (c :: t) = some (strtodCore (c :: t)) := by
  simp only [decimalTry]
  rw [if_pos h]

/-- The lexer on a nonempty all-digit input: one number token holding
the rounded integer value. -/
theorem nextToken_decimal (ds : List Char) (hne : ds ≠ [])
    (hd : ∀ c ∈ ds, isDigitC c = true) :
    nextToken ds = (.num (rndQ (qofN (digitsFold 10 ds))), []) := by
  match ds, hne with
  | c :: t, _ =>
    have hc := hd c (List.mem_cons_self c t)
    have hpn : parseNumber (c :: t) = some (rndQ (qofN (digitsFold 10 (c :: t))), []) := by
      have htail : parseNumber (c :: t) = decimalTry (c :: t) := by
        match t with
        | [] => rfl
        | c2 :: r =>
          exact parseNumber_tail_decimal c c2 r (Or.inl (hd c2 (by simp)))
      rw [htail, decimalTry_digit c t hc, strtodCore_digits (c :: t) hd]
    exact nextToken_of_num c t _ [] (dig_not_space c hc) hpn

/-- The lexer on `digits e digits`. -/
theorem nextToken_sci (c1 : Char) (t1 d2 : List Char) (h2ne : d2 ≠ [])
    (hd1 : ∀ c ∈ c1 :: t1, isDigitC c = true) (hd2 : ∀ c ∈ d2, isDigitC c = true) :
    nextToken ((c1 :: t1) ++ 'e' :: d2) =
      (.num (rndQ (qmul (qofN (digitsFold 10 (c1 :: t1)))
        (qpow10 (digitsFold 10 d2)))), []) := by
  have hc1 := hd1 c1 (List.mem_cons_self c1 t1)
  have hcore := strtodCore_sci (c1 :: t1) d2 h2ne hd1 hd2
  have hpn : parseNumber (c1 :: (t1 ++ 'e' :: d2)) =
      some (rndQ (qmul (qofN (digitsFold 10 (c1 :: t1))) (qpow10 (digitsFold 10 d2))), []) := by
    have htail : parseNumber (c1 :: (t1 ++ 'e' :: d2)) = decimalTry (c1 :: (t1 ++ 'e' :: d2)) := by
      match t1, hd1 with
      | [], _ => exact parseNumber_tail_decimal c1 'e' d2 (Or.inr rfl)
      | c2 :: r, hd1 =>
        exact parseNumber_tail_decimal c1 c2 _ (Or.inl (hd1 c2 (by simp)))
    rw [htail, decimalTry_digit _ _ hc1]
    rw [show c1 :: (t1 ++ 'e' :: d2) = (c1 :: t1) ++ 'e' :: d2 from rfl, hcore]
  rw [show (c1 :: t1) ++ 'e' :: d2 = c1 :: (t1 ++ 'e' :: d2) from rfl]
  exact nextToken_of_num _ _ _ [] (dig_not_space c1 hc1) hpn

end Termcalc

namespace Termcalc

theorem idTake_len : ∀ (n : ℕ) (cs : List Char), (idTake n cs).1.length ≤ n := by
  intro n
  induction n with
  | zero =>
    intro cs
    cases cs <;> simp [idTake]
  | succ m ih =>
    intro cs
    cases cs with
    | nil => simp [idTake]
    | cons c t =>
      rw [idTake]
      split_ifs
      · simpa using Nat.succ_le_succ (ih t)
      · simp

/-- Identifier tokens carry at most 31 characters (`MAX_NAME - 1`). -/
theorem nextToken_id_len (cs : List Char) (n : String) (r : List Char)
    (h : nextToken cs = (.id n, r)) : n.length ≤ 31 := by
  rcases hd : cs.dropWhile isSpaceC with _ | ⟨c, t⟩ <;>
    simp only [nextToken, hd] at h
  · simp at h
  · rcases hpn : parseNumber (c :: t) with _ | p <;> simp only [hpn] at h
    · split_ifs at h <;> first
        | (simp at h
           rw [← h.1]
           simpa [String.length] using idTake_len 31 (c :: t))
        | simp at h
        | (rcases t with _ | ⟨c2, r2⟩ <;> simp at h <;> split_ifs at h <;> simp at h)
    · simp at h

theorem evaluate_vars_cases (u : CParams) (vars : List (String × Val)) (fmt0 : Fmt)
    (s : String) :
    (evaluate u vars fmt0 s).vars = vars ∨
      ∃ n v, n.length ≤ 31 ∧ (evaluate u vars fmt0 s).vars = set_var vars n v := by
  rcases hp0 : nextToken s.data with ⟨t0, r0⟩
  cases t0 with
  | id name =>
    simp only [evaluate, hp0]
    rcases hp1 : nextToken r0 with ⟨t1, r1⟩
    by_cases heq : t1 = .op '='
    · rcases hp2 : nextToken r1 with ⟨t2, r2⟩
      right
      refine ⟨name, (parseExpr u vars (evalFuel s.data) ⟨t2, r2, .dec, []⟩).1,
        nextToken_id_len s.data name r0 hp0, ?_⟩
      simp [hp1, heq, hp2]
    · left
      simp [hp1, heq]
  | num v0 => left; simp [evaluate, hp0]
  | op c => left; simp [evaluate, hp0]
  | lparen => left; simp [evaluate, hp0]
  | rparen => left; simp [evaluate, hp0]
  | tend => left; simp [evaluate, hp0]
  | terr => left; simp [evaluate, hp0]

theorem replaceVar_fst :
    ∀ (vars : List (String × Val)) (name : String) (v : Val) (vs : List (String × Val)),
      replaceVar vars name v = some vs →
      vs.map Prod.fst = vars.map Prod.fst := by
  intro vars
  induction vars with
  | nil => intro name v vs h; simp [replaceVar] at h
  | cons p t ih =>
    intro name v vs h
    rw [replaceVar] at h
    split_ifs at h with hn
    · rw [← Option.some.inj h]
      simp
    · rcases ht : replaceVar t name v with _ | t2 <;> rw [ht] at h
      · simp at h
      · rw [← Option.some.inj h]
        simp [ih name v t2 ht]

theorem replaceVar_none :
    ∀ (vars : List (String × Val)) (name : String) (v : Val),
      replaceVar vars name v = none → name ∉ vars.map Prod.fst := by
  intro vars
  induction vars with
  | nil => intro name v _; simp
  | cons p t ih =>
    intro name v h
    rw [replaceVar] at h
    split_ifs at h with hn
    rcases ht : replaceVar t name v with _ | t2 <;> rw [ht] at h
    · rw [List.map_cons, List.mem_cons]
      rintro (he | he)
      · exact hn he.symm
      · exact ih name v ht he
    · simp at h

/-- `set_var` keeps stored names unique (for names of at most 31
characters, which is all the lexer can produce). -/
theorem set_var_nodup (vars : List (String × Val)) (name : String) (v : Val)
    (hlen : name.length ≤ 31)
    (h : (vars.map Prod.fst).Nodup) :
    ((set_var vars name v).map Prod.fst).Nodup := by
  rw [set_var]
  rcases hr : replaceVar vars name v with _ | vs
  · split_ifs
    · have h31 : take31 name = name := by
        rw [take31]
        have ht : name.data.take 31 = name.data :=
          List.take_of_length_le (show name.data.length ≤ 31 from hlen)
        rw [ht]
      simp only [List.map_append, List.map_cons, List.map_nil, h31]
      refine List.Nodup.append h (by simp) ?_
      intro a ha hb
      simp at hb
      rw [hb] at ha
      exact absurd ha (replaceVar_none vars name v hr)
    · exact h
  · rw [replaceVar_fst vars name v vs hr]
    exact h

end Termcalc

namespace Termcalc

/-! ## Output-formatter lemmas -/

/-- Decode an MSB-first bit string. -/
def decodeBits (bs : List Char) : ℕ :=
  bs.foldl (fun a c => 2 * a + (if c = '1' then 1 else 0)) 0

theorem decodeBits_append_one (xs : List Char) (c : Char) :
    decodeBits (xs ++ [c]) = 2 * decodeBits xs + (if c = '1' then 1 else 0) := by
  rw [decodeBits, List.foldl_append]
  rfl

theorem binBuf_zero : ∀ (f : ℕ) (acc : List Char), binBuf f 0 acc = acc := by
  intro f acc
  cases f <;> simp [binBuf]

theorem binBuf_spec :
    ∀ (f : ℕ) (v : ℕ) (acc : List Char), 0 < v → v < 2 ^ f →
      ∃ bs, binBuf f v acc = bs ++ acc ∧ bs.head? = some '1' ∧
        decodeBits bs = v ∧ ∀ c ∈ bs, c = '0' ∨ c = '1' := by
  intro f
  induction f with
  | zero =>
    intro v acc hpos hlt
    omega
  | succ g ih =>
    intro v acc hpos hlt
    have hv : v ≠ 0 := Nat.pos_iff_ne_zero.mp hpos
    rw [binBuf, if_neg hv]
    by_cases hv2 : v / 2 = 0
    · have hv1 : v = 1 := by omega
      subst hv1
      rw [hv2, binBuf_zero]
      exact ⟨['1'], rfl, rfl, rfl, by simp⟩
    · have hlt2 : v / 2 < 2 ^ g := by
        rw [pow_succ] at hlt
        omega
      obtain ⟨bs, hb1, hb2, hb3, hb4⟩ :=
        ih (v / 2) ((if v % 2 = 1 then '1' else '0') :: acc) (Nat.pos_iff_ne_zero.mpr hv2) hlt2
      refine ⟨bs ++ [if v % 2 = 1 then '1' else '0'], ?_, ?_, ?_, ?_⟩
      · rw [hb1]
        simp
      · rcases bs with _ | ⟨b, t⟩
        · simp [decodeBits] at hb3
          omega
        · simpa using hb2
      · rw [decodeBits_append_one, hb3]
        have hdm := Nat.div_add_mod v 2
        by_cases hm : v % 2 = 1
        · rw [if_pos hm, if_pos rfl]
          omega
        · rw [if_neg hm, if_neg (show ¬('0' = '1') from by decide)]
          omega
      · intro c hc
        rcases List.mem_append.mp hc with hc1 | hc2
        · exact hb4 c hc1
        · simp at hc2
          subst hc2
          split_ifs <;> simp

/-- C `print_binary` emits the minimal-width bit pattern: `0b` followed
by bits starting with `1` that decode to the value. -/
theorem print_binary_spec (n : ℕ) (hpos : 0 < n) (hlt : n < 2 ^ 64) :
    ∃ bs, print_binary n = String.mk ('0' :: 'b' :: bs) ∧ bs.head? = some '1' ∧
      decodeBits bs = n ∧ ∀ c ∈ bs, c = '0' ∨ c = '1' := by
  obtain ⟨bs, hb1, hb2, hb3, hb4⟩ := binBuf_spec 64 n [] hpos hlt
  refine ⟨bs, ?_, hb2, hb3, hb4⟩
  rw [print_binary, if_neg (Nat.pos_iff_ne_zero.mp hpos), hb1]
  rw [List.append_nil]
  rfl

theorem digitChar_digit (d : ℕ) (h : d < 10) : isDigitC (digitChar d) = true := by
  interval_cases d <;> decide

theorem natToBase10_digits :
    ∀ (f n : ℕ) (acc : List Char), (∀ c ∈ acc, isDigitC c = true) →
      ∀ c ∈ natToBase 10 f n acc, isDigitC c = true := by
  intro f
  induction f with
  | zero => intro n acc hacc c hc; exact hacc c hc
  | succ g ih =>
    intro n acc hacc c hc
    rw [natToBase] at hc
    split_ifs at hc with hn
    · exact hacc c hc
    · refine ih (n / 10) _ ?_ c hc
      intro d hd
      rcases List.mem_cons.mp hd with rfl | hd2
      · exact digitChar_digit _ (Nat.mod_lt _ (by norm_num))
      · exact hacc d hd2

theorem natStr10_digits (n : ℕ) : ∀ c ∈ (natStr 10 n).data, isDigitC c = true := by
  rw [natStr]
  split_ifs with h
  · intro c hc
    simp at hc
    subst hc
    decide
  · intro c hc
    exact natToBase10_digits 128 n [] (by simp) c hc

/-- `%.0f` on an integral value prints sign and digits only. -/
theorem intDecStr_digits (z : ℤ) :
    ∀ c ∈ (intDecStr z).data, isDigitC c = true ∨ c = '-' := by
  rw [intDecStr]
  split_ifs with h
  · intro c hc
    have : ("-" ++ natStr 10 z.natAbs).data = '-' :: (natStr 10 z.natAbs).data := rfl
    rw [this] at hc
    rcases List.mem_cons.mp hc with rfl | hc2
    · exact Or.inr rfl
    · exact Or.inl (natStr10_digits z.natAbs c hc2)
  · intro c hc
    exact Or.inl (natStr10_digits z.natAbs c hc)

end Termcalc

namespace Termcalc

/-! ## Variable-lookup lemmas -/

/-- Modelled from the spec's words: the "fixed table of built-in named
constants (pi, e, byte-size units)" — the virtual `ans` binding is not
part of it. -/
def specBuiltins (name : String) : Option Val :=
  if name = "pi" ∨ name = "PI" then some PIconst
  else if name = "e" ∨ name = "E" then some Econst
  else if name = "KiB" ∨ name = "kib" then some (.num 1024)
  else if name = "MiB" ∨ name = "mib" then some (.num 1048576)
  else if name = "GiB" ∨ name = "gib" then some (.num 1073741824)
  else if name = "TiB" ∨ name = "tib" then some (.num 1099511627776)
  else if name = "KB" ∨ name = "kb" then some (.num 1000)
  else if name = "MB" ∨ name = "mb" then some (.num 1000000)
  else if name = "GB" ∨ name = "gb" then some (.num 1000000000)
  else if name = "TB" ∨ name = "tb" then some (.num 1000000000000)
  else none

theorem get_var_user (vars : List (String × Val)) (name : String) (v : Val)
    (h : lookupVar vars name = some v) : get_var vars name = (v, []) := by
  simp only [get_var, h]

theorem get_var_builtin (vars : List (String × Val)) (name : String) (b : Val)
    (h : lookupVar vars name = none) (hb : specBuiltins name = some b) :
    get_var vars name = (b, []) := by
  simp only [get_var, h]
  rw [specBuiltins] at hb
  by_cases h1 : name = "pi" ∨ name = "PI"
  · rw [if_pos h1] at hb
    rw [if_pos h1, Option.some.inj hb]
  rw [if_neg h1] at hb
  rw [if_neg h1]
  by_cases h2 : name = "e" ∨ name = "E"
  · rw [if_pos h2] at hb
    rw [if_pos h2, Option.some.inj hb]
  rw [if_neg h2] at hb
  rw [if_neg h2]
  have ha : ¬name = "ans" := by
    intro hae
    subst hae
    rw [if_neg (show ¬("ans" = "KiB" ∨ "ans" = "kib") from by decide),
      if_neg (show ¬("ans" = "MiB" ∨ "ans" = "mib") from by decide),
      if_neg (show ¬("ans" = "GiB" ∨ "ans" = "gib") from by decide),
      if_neg (show ¬("ans" = "TiB" ∨ "ans" = "tib") from by decide),
      if_neg (show ¬("ans" = "KB" ∨ "ans" = "kb") from by decide),
      if_neg (show ¬("ans" = "MB" ∨ "ans" = "mb") from by decide),
      if_neg (show ¬("ans" = "GB" ∨ "ans" = "gb") from by decide),
      if_neg (show ¬("ans" = "TB" ∨ "ans" = "tb") from by decide)] at hb
    exact Option.noConfusion hb
  rw [if_neg ha]
  by_cases h3 : name = "KiB" ∨ name = "kib"
  · rw [if_pos h3] at hb
    rw [if_pos h3, Option.some.inj hb]
  rw [if_neg h3] at hb
  rw [if_neg h3]
  by_cases h4 : name = "MiB" ∨ name = "mib"
  · rw [if_pos h4] at hb
    rw [if_pos h4, Option.some.inj hb]
  rw [if_neg h4] at hb
  rw [if_neg h4]
  by_cases h5 : name = "GiB" ∨ name = "gib"
  · rw [if_pos h5] at hb
    rw [if_pos h5, Option.some.inj hb]
  rw [if_neg h5] at hb
  rw [if_neg h5]
  by_cases h6 : name = "TiB" ∨ name = "tib"
  · rw [if_pos h6] at hb
    rw [if_pos h6, Option.some.inj hb]
  rw [if_neg h6] at hb
  rw [if_neg h6]
  by_cases h7 : name = "KB" ∨ name = "kb"
  · rw [if_pos h7] at hb
    rw [if_pos h7, Option.some.inj hb]
  rw [if_neg h7] at hb
  rw [if_neg h7]
  by_cases h8 : name = "MB" ∨ name = "mb"
  · rw [if_pos h8] at hb
    rw [if_pos h8, Option.some.inj hb]
  rw [if_neg h8] at hb
  rw [if_neg h8]
  by_cases h9 : name = "GB" ∨ name = "gb"
  · rw [if_pos h9] at hb
    rw [if_pos h9, Option.some.inj hb]
  rw [if_neg h9] at hb
  rw [if_neg h9]
  by_cases h10 : name = "TB" ∨ name = "tb"
  · rw [if_pos h10] at hb
    rw [if_pos h10, Option.some.inj hb]
  rw [if_neg h10] at hb
  exact Option.noConfusion hb

/-- The dynamic fallback for the virtual `ans` binding: the value of the
first stored binding, or 0 when the collection is empty. -/
def ansFallback : List (String × Val) → Val
  | [] => .num 0
  | (_, v) :: _ => v

theorem get_var_ans (vars : List (String × Val))
    (h : lookupVar vars "ans" = none) :
    get_var vars "ans" = (ansFallback vars, []) := by
  simp only [get_var, h]
  rw [if_neg (show ¬("ans" = "pi" ∨ "ans" = "PI") from by decide),
    if_neg (show ¬("ans" = "e" ∨ "ans" = "E") from by decide), if_true]
  cases vars with
  | nil => rfl
  | cons p t =>
    rcases p with ⟨n, w⟩
    rfl

theorem get_var_miss (vars : List (String × Val)) (name : String)
    (h : lookupVar vars name = none) (hb : specBuiltins name = none)
    (ha : name ≠ "ans") :
    get_var vars name = (.nan, ["undefined: " ++ name]) := by
  simp only [get_var, h]
  rw [specBuiltins] at hb
  by_cases h1 : name = "pi" ∨ name = "PI"
  · rw [if_pos h1] at hb
    exact Option.noConfusion hb
  rw [if_neg h1] at hb
  rw [if_neg h1]
  by_cases h2 : name = "e" ∨ name = "E"
  · rw [if_pos h2] at hb
    exact Option.noConfusion hb
  rw [if_neg h2] at hb
  rw [if_neg h2, if_neg ha]
  by_cases h3 : name = "KiB" ∨ name = "kib"
  · rw [if_pos h3] at hb
    exact Option.noConfusion hb
  rw [if_neg h3] at hb
  rw [if_neg h3]
  by_cases h4 : name = "MiB" ∨ name = "mib"
  · rw [if_pos h4] at hb
    exact Option.noConfusion hb
  rw [if_neg h4] at hb
  rw [if_neg h4]
  by_cases h5 : name = "GiB" ∨ name = "gib"
  · rw [if_pos h5] at hb
    exact Option.noConfusion hb
  rw [if_neg h5] at hb
  rw [if_neg h5]
  by_cases h6 : name = "TiB" ∨ name = "tib"
  · rw [if_pos h6] at hb
    exact Option.noConfusion hb
  rw [if_neg h6] at hb
  rw [if_neg h6]
  by_cases h7 : name = "KB" ∨ name = "kb"
  · rw [if_pos h7] at hb
    exact Option.noConfusion hb
  rw [if_neg h7] at hb
  rw [if_neg h7]
  by_cases h8 : name = "MB" ∨ name = "mb"
  · rw [if_pos h8] at hb
    exact Option.noConfusion hb
  rw [if_neg h8] at hb
  rw [if_neg h8]
  by_cases h9 : name = "GB" ∨ name = "gb"
  · rw [if_pos h9] at hb
    exact Option.noConfusion hb
  rw [if_neg h9] at hb
  rw [if_neg h9]
  by_cases h10 : name = "TB" ∨ name = "tb"
  · rw [if_pos h10] at hb
    exact Option.noConfusion hb
  rw [if_neg h10]

end Termcalc

namespace Termcalc

/-! ## Assignment and lookup support -/

/-- Total variable model for a concrete environment. -/
def gvTotal (vars : List (String × Val)) : String → Option (Val × List String) :=
  fun n => some (get_var vars n)

theorem gvTotal_ok (vars : List (String × Val)) :
    ∀ n r, gvTotal vars n = some r → get_var vars n = r :=
  fun _ _ h => Option.some.inj h

theorem lookupVar_replaceVar :
    ∀ (vars : List (String × Val)) (name : String) (v : Val) (vs : List (String × Val)),
      replaceVar vars name v = some vs → lookupVar vs name = some v := by
  intro vars
  induction vars with
  | nil => intro name v vs h; simp [replaceVar] at h
  | cons p t ih =>
    intro name v vs h
    rw [replaceVar] at h
    split_ifs at h with hn
    · rw [← Option.some.inj h, lookupVar, if_pos hn]
    · rcases ht : replaceVar t name v with _ | t2 <;> rw [ht] at h
      · simp at h
      · rw [← Option.some.inj h, lookupVar, if_neg hn]
        exact ih name v t2 ht

theorem lookupVar_none_of_not_mem :
    ∀ (vars : List (String × Val)) (name : String),
      name ∉ vars.map Prod.fst → lookupVar vars name = none := by
  intro vars
  induction vars with
  | nil => intro name _; rfl
  | cons p t ih =>
    intro name h
    rcases p with ⟨n, w⟩
    rw [List.map_cons, List.mem_cons] at h
    push_neg at h
    rw [lookupVar, if_neg (fun he => h.1 he.symm)]
    exact ih name h.2

theorem lookupVar_append_of_none :
    ∀ (l1 l2 : List (String × Val)) (name : String),
      lookupVar l1 name = none → lookupVar (l1 ++ l2) name = lookupVar l2 name := by
  intro l1
  induction l1 with
  | nil => intro l2 name _; rfl
  | cons p t ih =>
    intro l2 name h
    rcases p with ⟨n, w⟩
    rw [lookupVar] at h
    split_ifs at h with hn
    rw [List.cons_append, lookupVar, if_neg hn]
    exact ih l2 name h

/-- After `set_var`, looking the name up yields the stored value (when
the table had room or the name was already bound; names from the lexer
are at most 31 characters long, so truncation is the identity). -/
theorem lookupVar_set_var (vars : List (String × Val)) (name : String) (v : Val)
    (hlen : name.length ≤ 31)
    (hroom : vars.length < 64 ∨ name ∈ vars.map Prod.fst) :
    lookupVar (set_var vars name v) name = some v := by
  rw [set_var]
  rcases hr : replaceVar vars name v with _ | vs
  · have hnm := replaceVar_none vars name v hr
    rcases hroom with hl | hm
    · rw [if_pos hl]
      rw [lookupVar_append_of_none vars _ name (lookupVar_none_of_not_mem vars name hnm)]
      have h31 : take31 name = name := by
        rw [take31]
        have ht2 : name.data.take 31 = name.data :=
          List.take_of_length_le (show name.data.length ≤ 31 from hlen)
        rw [ht2]
      rw [lookupVar, h31, if_pos rfl]
    · exact absurd hm hnm
  · exact lookupVar_replaceVar vars name v vs hr

/-- `evaluate` on an assignment whose right-hand side is a single
number token. -/
theorem evaluate_assign_num (u : CParams) (vars : List (String × Val)) (fmt0 : Fmt)
    (s : String) (name : String) (r0 r1 : List Char) (v : Val)
    (h0 : nextToken s.data = (.id name, r0))
    (h1 : nextToken r0 = (.op '=', r1))
    (h2 : nextToken r1 = (.num v, [])) :
    evaluate u vars fmt0 s = ⟨v, set_var vars name v, .dec, []⟩ := by
  simp only [evaluate, h0, h1, if_pos rfl, h2]
  rw [evalFuel_split, parseExpr, parse_single_num_t]
  simp

/-- `evaluate` on an assignment, with the right-hand side run through
the checked interpreter. -/
theorem evaluate_assign_of_chk (gv : String → Option (Val × List String))
    (u : CParams) (vars : List (String × Val)) (fmt0 : Fmt)
    (s : String) (name : String) (r0 r1 : List Char) (res : Val × PState)
    (hgv : ∀ n r, gv n = some r → get_var vars n = r)
    (h0 : nextToken s.data = (.id name, r0))
    (h1 : nextToken r0 = (.op '=', r1))
    (hc : parseGoChk gv (evalFuel s.data) .expr .nan
        ⟨(nextToken r1).1, (nextToken r1).2, .dec, []⟩ = some res) :
    evaluate u vars fmt0 s = ⟨res.1, set_var vars name res.1, res.2.fmt, res.2.diags⟩ := by
  rcases hp2 : nextToken r1 with ⟨t2, r2⟩
  rw [hp2] at hc
  simp only [evaluate, h0, h1, if_pos rfl, hp2]
  rw [parseExpr, parseGoChk_sound gv u vars hgv _ _ _ _ _ hc]
  simp

end Termcalc

namespace Termcalc

/-! ## Remaining support lemmas -/

theorem ratTrunc_qofN (n : ℕ) : ratTrunc (qofN n) = (n : ℤ) := by
  have hq : qofN n = ((n : ℤ) : ℚ) := by
    rw [qofN, Int.ofNat_eq_natCast, Rat.mkRat_one]
  rw [ratTrunc, hq]
  rw [if_pos (by simp : (0 : ℤ) ≤ ((n : ℤ) : ℚ).num)]
  simp

theorem toU64_qofN (u : CParams) (n : ℕ) (h : n < 2 ^ 64) :
    toU64 u (.num (qofN n)) = n := by
  simp only [toU64, toUN, ratTrunc_qofN]
  rw [if_pos (by positivity : (0 : ℤ) ≤ (n : ℤ))]
  rw [Int.toNat_natCast]
  rw [if_pos h]

/-- Hypothetical-environment model answering only for the unbound name
`qq`. -/
def gvQQ : String → Option (Val × List String) :=
  fun n => if n = "qq" then some (.nan, ["undefined: qq"]) else none

theorem gvQQ_ok (vars : List (String × Val)) (h : lookupVar vars "qq" = none) :
    ∀ n r, gvQQ n = some r → get_var vars n = r := by
  intro n r hr
  by_cases hn : n = "qq"
  · subst hn
    rw [gvQQ, if_pos rfl] at hr
    rw [← Option.some.inj hr]
    exact get_var_miss vars "qq" h (by decide) (by decide)
  · rw [gvQQ, if_neg hn] at hr
    exact Option.noConfusion hr

end Termcalc

namespace Termcalc

/-! ## The claims -/

/-- C1: the parser follows the precedence and associativity table: `^` is
right-associative and binds tighter than `*`, `-` is left-associative,
additive operators bind tighter than shifts, shifts tighter than `&`,
and `&` tighter than `|`; in every environment `2^3^2` evaluates to 512,
`2-3-4` to -5, and `1<<2+1` to 8. -/
theorem claim_C1 (u : CParams) (vars : List (String × Val)) (fmt0 : Fmt) :
    evaluate u vars fmt0 "2^3^2" = ⟨.num 512, vars, .dec, []⟩ ∧
    evaluate u vars fmt0 "2-3-4" = ⟨.num (-5), vars, .dec, []⟩ ∧
    evaluate u vars fmt0 "1<<2+1" = ⟨.num 8, vars, .dec, []⟩ ∧
    evaluate u vars fmt0 "2*3^2" = ⟨.num 18, vars, .dec, []⟩ ∧
    evaluate u vars fmt0 "6&3<<1" = ⟨.num 6, vars, .dec, []⟩ ∧
    evaluate u vars fmt0 "4|1&3" = ⟨.num 5, vars, .dec, []⟩ :=
  ⟨evaluateChk_sound gvNone u vars fmt0 _ (gvNone_ok vars) _ _ _ (by decide),
   evaluateChk_sound gvNone u vars fmt0 _ (gvNone_ok vars) _ _ _ (by decide),
   evaluateChk_sound gvNone u vars fmt0 _ (gvNone_ok vars) _ _ _ (by decide),
   evaluateChk_sound gvNone u vars fmt0 _ (gvNone_ok vars) _ _ _ (by decide),
   evaluateChk_sound gvNone u vars fmt0 _ (gvNone_ok vars) _ _ _ (by decide),
   evaluateChk_sound gvNone u vars fmt0 _ (gvNone_ok vars) _ _ _ (by decide)⟩

/-- C2 (amended): the not-a-number sentinel propagates through the
arithmetic operators `+`, `-`, `*`, `/`, `%` in either operand position,
and evaluating `qq + 1` with `qq` unbound yields the sentinel in every
environment.  The original claim's "any arithmetic/binary operator" is
too strong: `^` applied to the sentinel and exponent 0 yields 1 (see the
counterexample), and the bitwise/shift operators pass the sentinel
through an out-of-range float-to-integer conversion whose C result is
undefined. -/
theorem claim_C2 :
    (∀ w : Val, addV .nan w = .nan ∧ addV w .nan = .nan ∧
      subV .nan w = .nan ∧ subV w .nan = .nan ∧
      mulV .nan w = .nan ∧ mulV w .nan = .nan ∧
      divV .nan w = .nan ∧ divV w .nan = .nan ∧
      fmodV .nan w = .nan ∧ fmodV w .nan = .nan) ∧
    (∀ (u : CParams) (vars : List (String × Val)) (fmt0 : Fmt),
      lookupVar vars "qq" = none →
      evaluate u vars fmt0 "qq + 1" = ⟨.nan, vars, .dec, ["undefined: qq"]⟩) := by
  constructor
  · intro w
    cases w <;> exact ⟨rfl, rfl, rfl, rfl, rfl, rfl, rfl, rfl, rfl, rfl⟩
  · intro u vars fmt0 h
    exact evaluateChk_sound gvQQ u vars fmt0 _ (gvQQ_ok vars h) _ _ _ (by decide)

theorem claim_C2_witness :
    evaluate ub0 [] .dec "qq + 1" = ⟨.nan, [], .dec, ["undefined: qq"]⟩ ∧
    mulV .nan .pinf = .nan :=
  ⟨claim_C2.2 ub0 [] .dec rfl, (claim_C2.1 .pinf).2.2.2.2.1⟩

/-- C2 counterexample: the sentinel produced by the undefined identifier
`qq` does not survive the power operator with exponent 0 — `qq ^ 0`
evaluates to 1 (C `pow(NaN, 0) = 1`), not to the sentinel. -/
theorem claim_C2_counterexample :
    evaluate ub0 [] .dec "qq ^ 0" = ⟨.num 1, [], .dec, ["undefined: qq"]⟩ ∧
    Val.num 1 ≠ Val.nan :=
  ⟨by decide, by decide⟩

/-- C3 (amended): a prefixed or decimal literal evaluates to the encoded
value rounded to the nearest IEEE double (`rnd53`/`rndQ`), not always to
the exact encoded value: hex, octal and binary literals are accumulated
as unsigned 64-bit integers and then converted to double, decimal and
scientific literals go through the decimal-to-double conversion.  The
four examples of the claim, whose values are exactly representable, do
evaluate exactly. -/
theorem claim_C3 :
    (∀ (u : CParams) (vars : List (String × Val)) (fmt0 : Fmt) (x : Char)
      (ds : List Char), (x = 'x' ∨ x = 'X') → ds ≠ [] →
      (∀ c ∈ ds, isHexDigitC c = true) → digitsFold 16 ds < 2 ^ 64 →
      evaluate u vars fmt0 (String.mk ('0' :: x :: ds)) =
        ⟨rnd53 (digitsFold 16 ds), vars, .dec, []⟩) ∧
    (∀ (u : CParams) (vars : List (String × Val)) (fmt0 : Fmt) (x : Char)
      (ds : List Char), (x = 'o' ∨ x = 'O') → ds ≠ [] →
      (∀ c ∈ ds, isOctDigitC c = true) → digitsFold 8 ds < 2 ^ 64 →
      evaluate u vars fmt0 (String.mk ('0' :: x :: ds)) =
        ⟨rnd53 (digitsFold 8 ds), vars, .dec, []⟩) ∧
    (∀ (u : CParams) (vars : List (String × Val)) (fmt0 : Fmt) (x : Char)
      (ds : List Char), (x = 'b' ∨ x = 'B') →
      (∀ c ∈ ds, c = '0' ∨ c = '1') → digitsFold 2 ds < 2 ^ 64 →
      evaluate u vars fmt0 (String.mk ('0' :: x :: ds)) =
        ⟨rnd53 (digitsFold 2 ds), vars, .dec, []⟩) ∧
    (∀ (u : CParams) (vars : List (String × Val)) (fmt0 : Fmt) (ds : List Char),
      ds ≠ [] → (∀ c ∈ ds, isDigitC c = true) →
      evaluate u vars fmt0 (String.mk ds) =
        ⟨rndQ (qofN (digitsFold 10 ds)), vars, .dec, []⟩) ∧
    (∀ (u : CParams) (vars : List (String × Val)) (fmt0 : Fmt) (c1 : Char)
      (t1 d2 : List Char), d2 ≠ [] → (∀ c ∈ c1 :: t1, isDigitC c = true) →
      (∀ c ∈ d2, isDigitC c = true) →
      evaluate u vars fmt0 (String.mk ((c1 :: t1) ++ 'e' :: d2)) =
        ⟨rndQ (qmul (qofN (digitsFold 10 (c1 :: t1)))
          (qpow10 (digitsFold 10 d2))), vars, .dec, []⟩) ∧
    (∀ (u : CParams) (vars : List (String × Val)) (fmt0 : Fmt),
      evaluate u vars fmt0 "0xFF" = ⟨.num 255, vars, .dec, []⟩ ∧
      evaluate u vars fmt0 "0b1010" = ⟨.num 10, vars, .dec, []⟩ ∧
      evaluate u vars fmt0 "0o17" = ⟨.num 15, vars, .dec, []⟩ ∧
      evaluate u vars fmt0 "1e3" = ⟨.num 1000, vars, .dec, []⟩) := by
  refine ⟨?_, ?_, ?_, ?_, ?_, ?_⟩
  · intro u vars fmt0 x ds hx hne hh hlt
    have hpn := parseNumber_hex x hx ds hne hh
    rw [show clamp64 (digitsFold 16 ds) = digitsFold 16 ds from if_pos hlt] at hpn
    exact evaluate_single_num u vars fmt0 _ _ (nextToken_of_num '0' (x :: ds) _ _ rfl hpn)
  · intro u vars fmt0 x ds hx hne hh hlt
    have hpn := parseNumber_oct x hx ds hne hh
    rw [show clamp64 (digitsFold 8 ds) = digitsFold 8 ds from if_pos hlt] at hpn
    exact evaluate_single_num u vars fmt0 _ _ (nextToken_of_num '0' (x :: ds) _ _ rfl hpn)
  · intro u vars fmt0 x ds hx hh hlt
    have hpn := parseNumber_bin x hx ds hh hlt
    exact evaluate_single_num u vars fmt0 _ _ (nextToken_of_num '0' (x :: ds) _ _ rfl hpn)
  · intro u vars fmt0 ds hne hd
    exact evaluate_single_num u vars fmt0 _ _ (nextToken_decimal ds hne hd)
  · intro u vars fmt0 c1 t1 d2 h2ne hd1 hd2
    exact evaluate_single_num u vars fmt0 _ _ (nextToken_sci c1 t1 d2 h2ne hd1 hd2)
  · intro u vars fmt0
    exact ⟨evaluateChk_sound gvNone u vars fmt0 _ (gvNone_ok vars) _ _ _ (by decide),
      evaluateChk_sound gvNone u vars fmt0 _ (gvNone_ok vars) _ _ _ (by decide),
      evaluateChk_sound gvNone u vars fmt0 _ (gvNone_ok vars) _ _ _ (by decide),
      evaluateChk_sound gvNone u vars fmt0 _ (gvNone_ok vars) _ _ _ (by decide)⟩

theorem claim_C3_witness :
    evaluate ub0 [] .dec (String.mk ['0', 'x', 'F', 'F']) =
      ⟨rnd53 (digitsFold 16 ['F', 'F']), [], .dec, []⟩ ∧
    evaluate ub0 [] .dec (String.mk ['4', '2']) =
      ⟨rndQ (qofN (digitsFold 10 ['4', '2'])), [], .dec, []⟩ :=
  ⟨claim_C3.1 ub0 [] .dec 'x' ['F', 'F'] (Or.inl rfl) (by decide) (by decide)
    (by decide),
   claim_C3.2.2.2.1 ub0 [] .dec ['4', '2'] (by decide) (by decide)⟩

/-- C3 counterexample: the hexadecimal literal `0x20000000000001`
encodes `2^53 + 1 = 9007199254740993`, but evaluating it yields the
rounded double `9007199254740992` — not exactly the encoded value. -/
theorem claim_C3_counterexample :
    evaluate ub0 [] .dec "0x20000000000001" =
      ⟨.num 9007199254740992, [], .dec, []⟩ ∧
    digitsFold 16 "20000000000001".data = 9007199254740993 ∧
    (9007199254740992 : ℚ) ≠ 9007199254740993 :=
  ⟨by decide, by decide, by decide⟩

end Termcalc

namespace Termcalc

/-- C4 (corrected — amended): when a `0x`/`0X` or `0o`/`0O` prefix
consumes no digits, the lexer does not fall through to the decimal
parse: `parse_number` fails and the `0` becomes an error token (the
prefix letter is left in the input).  When a `0b`/`0B` prefix consumes
no digits, the lexer produces the number token 0 for the prefix itself
(both prefix characters consumed).  Neither case is the claimed decimal
fallthrough. -/
theorem claim_C4 :
    (∀ (x : Char) (cs : List Char), (x = 'x' ∨ x = 'X') →
      strtoull16 cs = none →
      nextToken ('0' :: x :: cs) = (.terr, x :: cs)) ∧
    (∀ (x : Char) (cs : List Char), (x = 'o' ∨ x = 'O') →
      strtoull8 cs = none →
      nextToken ('0' :: x :: cs) = (.terr, x :: cs)) ∧
    (∀ (x : Char) (cs : List Char), (x = 'b' ∨ x = 'B') →
      (∀ c t, cs = c :: t → ¬(c = '0' ∨ c = '1')) →
      nextToken ('0' :: x :: cs) = (.num (.num 0), cs)) := by
  refine ⟨?_, ?_, ?_⟩
  · intro x cs hx h
    have hxb : ¬(x = 'b' ∨ x = 'B') := by
      rcases hx with rfl | rfl <;> decide
    have hpn : parseNumber ('0' :: x :: cs) = none := by
      rw [parseNumber, if_pos rfl, if_pos hx, h]
    rw [nextToken, List.dropWhile_cons]
    simp only [show isSpaceC '0' = false from rfl, Bool.false_eq_true, if_false]
    simp only [hpn]
    rfl
  · intro x cs hx h
    have hxb : ¬(x = 'x' ∨ x = 'X') := by
      rcases hx with rfl | rfl <;> decide
    have hbb : ¬(x = 'b' ∨ x = 'B') := by
      rcases hx with rfl | rfl <;> decide
    have hpn : parseNumber ('0' :: x :: cs) = none := by
      rw [parseNumber, if_pos rfl, if_neg hxb, if_neg hbb, if_pos hx, h]
    rw [nextToken, List.dropWhile_cons]
    simp only [show isSpaceC '0' = false from rfl, Bool.false_eq_true, if_false]
    simp only [hpn]
    rfl
  · intro x cs hx hhd
    have hxb : ¬(x = 'x' ∨ x = 'X') := by
      rcases hx with rfl | rfl <;> decide
    have hbs : binScan cs 0 = (0, cs) := by
      cases cs with
      | nil => rfl
      | cons c t => rw [binScan, if_neg (hhd c t rfl)]
    have hpn : parseNumber ('0' :: x :: cs) = some (.num 0, cs) := by
      rw [parseNumber, if_pos rfl, if_neg hxb, if_pos hx, hbs]
      show some (rnd53 0, cs) = some (.num 0, cs)
      rw [show rnd53 0 = .num 0 from by decide]
    exact nextToken_of_num '0' (x :: cs) (.num 0) cs rfl hpn

theorem claim_C4_witness :
    nextToken ['0', 'x'] = (.terr, ['x']) ∧
    nextToken ['0', 'b'] = (.num (.num 0), []) :=
  ⟨claim_C4.1 'x' [] (Or.inl rfl) (by decide),
   claim_C4.2.2 'b' [] (Or.inl rfl) (fun c t h => List.noConfusion h)⟩

/-- C4 counterexample: on the digitless prefixes the lexer diverges from
the claimed decimal/scientific fallthrough.  The decimal parse of `0x`
would give the number token 0 with `x` left over; the lexer instead
yields the error token.  The decimal parse of `0b` would give 0 with `b`
left over; the lexer instead consumes both characters as the number
token 0. -/
theorem claim_C4_counterexample :
    nextToken ['0', 'x'] = (.terr, ['x']) ∧
    decimalTry ['0', 'x'] = some (.num 0, ['x']) ∧
    Tok.terr ≠ Tok.num (.num 0) ∧
    nextToken ['0', 'b'] = (.num (.num 0), []) ∧
    decimalTry ['0', 'b'] = some (.num 0, ['b']) ∧
    ([] : List Char) ≠ ['b'] :=
  ⟨by decide, by decide, by decide, by decide, by decide, by decide⟩

/-- C5 (amended): shift counts of 64 or more, and negative counts, are
not guarded: both the operators and shl/shr then return a value
determined by the undefined native shift (the `shlU` parameter), and two
completions of that undefined behaviour give different evaluation
results (see the counterexample).  For counts 0..63 the result is the
unsigned 64-bit shift of the truncated left operand, independent of the
parameters. -/
theorem claim_C5 :
    (∀ (u : CParams) (l : ℕ) (r : ℤ), 0 ≤ r → r < 64 →
      cShl u l r = l * 2 ^ r.toNat % 2 ^ 64 ∧ cShr u l r = l / 2 ^ r.toNat) ∧
    (∀ (u : CParams) (vars : List (String × Val)) (fmt0 : Fmt),
      evaluate u vars fmt0 "1<<3" = ⟨.num 8, vars, .dec, []⟩ ∧
      evaluate u vars fmt0 "16>>2" = ⟨.num 4, vars, .dec, []⟩) ∧
    (evaluate ub0 [] .dec "shl(1,3)" = ⟨.num 8, [], .dec, []⟩ ∧
     evaluate ub1 [] .dec "shl(1,3)" = ⟨.num 8, [], .dec, []⟩ ∧
     evaluate ub0 [] .dec "shr(16,2)" = ⟨.num 4, [], .dec, []⟩ ∧
     evaluate ub1 [] .dec "shr(16,2)" = ⟨.num 4, [], .dec, []⟩) := by
  refine ⟨fun u l r h0 h1 => ⟨?_, ?_⟩, fun u vars fmt0 => ⟨?_, ?_⟩,
    by decide, by decide, by decide, by decide⟩
  · rw [cShl, if_pos ⟨h0, h1⟩]
  · rw [cShr, if_pos ⟨h0, h1⟩]
  · exact evaluateChk_sound gvNone u vars fmt0 _ (gvNone_ok vars) _ _ _ (by decide)
  · exact evaluateChk_sound gvNone u vars fmt0 _ (gvNone_ok vars) _ _ _ (by decide)

theorem claim_C5_witness :
    cShl ub0 1 3 = 1 * 2 ^ (3 : ℤ).toNat % 2 ^ 64 ∧
    cShr ub0 16 2 = 16 / 2 ^ (2 : ℤ).toNat :=
  ⟨(claim_C5.1 ub0 1 3 (by decide) (by decide)).1,
   (claim_C5.1 ub0 16 2 (by decide) (by decide)).2⟩

/-- C5 counterexample: out-of-range shift counts are not guarded — the
result of `1<<64`, `shl(1,64)` and `1<<-1` changes when only the
completion of the undefined native shift (`shlU`) changes, so the source
inherits the undefined native-shift behaviour instead of defining the
result. -/
theorem claim_C5_counterexample :
    evaluate ub0 [] .dec "1<<64" ≠ evaluate ub1 [] .dec "1<<64" ∧
    evaluate ub0 [] .dec "shl(1,64)" ≠ evaluate ub1 [] .dec "shl(1,64)" ∧
    evaluate ub0 [] .dec "1<<-1" ≠ evaluate ub1 [] .dec "1<<-1" :=
  ⟨by decide, by decide, by decide⟩

/-- C6: every evaluation starts by resetting the output format to
decimal (the result is independent of the leftover flag value), the four
selectors return their argument and set the format, a `hex(255)`
expression yields 255 with format hex, and an independent `1+1` after it
— whatever flag value it inherits — prints `2` in decimal. -/
theorem claim_C6 (u : CParams) (vars : List (String × Val)) (fmt0 : Fmt) :
    (∀ arg : Val, call_func u "hex" arg = (arg, some .hex, []) ∧
      call_func u "bin" arg = (arg, some .bin, []) ∧
      call_func u "oct" arg = (arg, some .oct, []) ∧
      call_func u "dec" arg = (arg, some .dec, [])) ∧
    (∀ s : String, evaluate u vars fmt0 s = evaluate u vars .dec s) ∧
    evaluate u vars fmt0 "hex(255)" = ⟨.num 255, vars, .hex, []⟩ ∧
    evaluate u vars .hex "1+1" = ⟨.num 2, vars, .dec, []⟩ ∧
    print_result u .dec (.num 2) = some "2" :=
  ⟨fun arg => ⟨rfl, rfl, rfl, rfl⟩, fun s => rfl,
   evaluateChk_sound gvNone u vars fmt0 _ (gvNone_ok vars) _ _ _ (by decide),
   evaluateChk_sound gvNone u vars .hex _ (gvNone_ok vars) _ _ _ (by decide),
   rfl⟩

end Termcalc

namespace Termcalc

/-- C7: every evaluation preserves uniqueness of the stored variable
names (assignment overwrites in place or appends a fresh name), and the
assignment round-trip behaves as claimed: `x = 5` stores the single
binding x=5, `x*2` then yields 10 without touching the store,
re-assigning `x = 7` overwrites in place, and a later `x` yields 7 with
exactly the one binding. -/
theorem claim_C7 :
    (∀ (u : CParams) (vars : List (String × Val)) (fmt0 : Fmt) (s : String),
      (vars.map Prod.fst).Nodup →
      (((evaluate u vars fmt0 s).vars).map Prod.fst).Nodup) ∧
    (∀ u : CParams,
      evaluate u [] .dec "x = 5" = ⟨.num 5, [("x", .num 5)], .dec, []⟩ ∧
      evaluate u [("x", .num 5)] .dec "x*2" =
        ⟨.num 10, [("x", .num 5)], .dec, []⟩ ∧
      evaluate u [("x", .num 5)] .dec "x = 7" =
        ⟨.num 7, [("x", .num 7)], .dec, []⟩ ∧
      evaluate u [("x", .num 7)] .dec "x" =
        ⟨.num 7, [("x", .num 7)], .dec, []⟩) := by
  constructor
  · intro u vars fmt0 s h
    rcases evaluate_vars_cases u vars fmt0 s with he | ⟨n, v, hlen, he⟩
    · rw [he]
      exact h
    · rw [he]
      exact set_var_nodup vars n v hlen h
  · intro u
    refine ⟨?_, ?_, ?_, ?_⟩
    · exact (evaluate_assign_num u [] .dec "x = 5" "x"
        [' ', '=', ' ', '5'] [' ', '5'] (.num 5)
        (by decide) (by decide) (by decide)).trans (by decide)
    · exact evaluateChk_sound (gvTotal [("x", .num 5)]) u _ .dec _
        (gvTotal_ok _) _ _ _ (by decide)
    · exact (evaluate_assign_num u [("x", .num 5)] .dec "x = 7" "x"
        [' ', '=', ' ', '7'] [' ', '7'] (.num 7)
        (by decide) (by decide) (by decide)).trans (by decide)
    · exact evaluateChk_sound (gvTotal [("x", .num 7)]) u _ .dec _
        (gvTotal_ok _) _ _ _ (by decide)

theorem claim_C7_witness :
    (((evaluate ub0 [("x", .num 5)] .dec "x = 7").vars).map Prod.fst).Nodup ∧
    evaluate ub0 [] .dec "x = 5" = ⟨.num 5, [("x", .num 5)], .dec, []⟩ :=
  ⟨claim_C7.1 ub0 [("x", .num 5)] .dec "x = 7" (by decide),
   (claim_C7.2 ub0).1⟩

/-- C8: identifier lookup checks the user bindings first (so a user
binding shadows a built-in of the same name), then the fixed built-in
table, then the virtual `ans` binding (the first stored value, or 0 for
an empty store), and a name found nowhere yields the not-a-number
sentinel with an "undefined" diagnostic. -/
theorem claim_C8 :
    (∀ (vars : List (String × Val)) (name : String) (v : Val),
      lookupVar vars name = some v → get_var vars name = (v, [])) ∧
    (∀ (vars : List (String × Val)) (name : String) (b : Val),
      lookupVar vars name = none → specBuiltins name = some b →
      get_var vars name = (b, [])) ∧
    (∀ vars : List (String × Val), lookupVar vars "ans" = none →
      get_var vars "ans" = (ansFallback vars, [])) ∧
    (∀ (vars : List (String × Val)) (name : String),
      lookupVar vars name = none → specBuiltins name = none → name ≠ "ans" →
      get_var vars name = (.nan, ["undefined: " ++ name])) :=
  ⟨get_var_user, get_var_builtin, get_var_ans, get_var_miss⟩

theorem claim_C8_witness :
    get_var [("pi", .num 3)] "pi" = (.num 3, []) ∧
    get_var [] "pi" = (PIconst, []) ∧
    get_var [] "ans" = (ansFallback [], []) ∧
    get_var [("y", .num 2)] "ans" = (ansFallback [("y", .num 2)], []) ∧
    get_var [] "zz" = (.nan, ["undefined: " ++ "zz"]) :=
  ⟨claim_C8.1 _ _ _ (by decide), claim_C8.2.1 _ _ _ (by decide) (by decide),
   claim_C8.2.2.1 _ (by decide), claim_C8.2.2.1 _ (by decide),
   claim_C8.2.2.2 _ _ (by decide) (by decide) (by decide)⟩

end Termcalc

namespace Termcalc

/-- C9: the formatter is silent on the not-a-number sentinel; in decimal
format an integral value of magnitude below 1e15 prints as a plain
integer (sign and digits only) and any other finite value prints through
the 12-significant-digit `%g` path; in binary format the value is
truncated to unsigned 64-bit, zero prints as `0b0`, and a nonzero value
prints as `0b` followed by its minimal-width bit pattern (leading `1`,
bits only, decoding back to the value). -/
theorem claim_C9 :
    (∀ (u : CParams) (fmt : Fmt), print_result u fmt .nan = none) ∧
    (∀ (u : CParams) (q : ℚ),
      qlt (qabs q) (qofN 1000000000000000) = true → q = qofZ2 (ratFloor q) →
      print_result u .dec (.num q) = some (intDecStr q.num) ∧
      ∀ c ∈ (intDecStr q.num).data, isDigitC c = true ∨ c = '-') ∧
    (∀ (u : CParams) (q : ℚ),
      ¬(qlt (qabs q) (qofN 1000000000000000) = true ∧ q = qofZ2 (ratFloor q)) →
      print_result u .dec (.num q) = some (g12 q)) ∧
    (∀ u : CParams, print_result u .bin (.num 0) = some "0b0") ∧
    (∀ (u : CParams) (n : ℕ), 0 < n → n < 2 ^ 64 →
      ∃ bs, print_result u .bin (.num (qofN n)) = some ("0b" ++ String.mk bs) ∧
        bs.head? = some '1' ∧ decodeBits bs = n ∧ ∀ c ∈ bs, c = '0' ∨ c = '1') ∧
    (∀ u : CParams,
      print_result u .dec (.num (mkRat 3 2)) = some "1.5" ∧
      print_result u .dec (.num (qofN 1000000000000000)) = some "1e+15") := by
  refine ⟨?_, ?_, ?_, ?_, ?_, ?_⟩
  · intro u fmt
    rfl
  · intro u q h1 h2
    refine ⟨?_, intDecStr_digits q.num⟩
    show (if qlt (qabs q) (qofN 1000000000000000) = true ∧ q = qofZ2 (ratFloor q)
        then some (intDecStr q.num) else some (g12 q)) = some (intDecStr q.num)
    rw [if_pos ⟨h1, h2⟩]
  · intro u q h
    show (if qlt (qabs q) (qofN 1000000000000000) = true ∧ q = qofZ2 (ratFloor q)
        then some (intDecStr q.num) else some (g12 q)) = some (g12 q)
    rw [if_neg h]
  · intro u
    rfl
  · intro u n hpos hlt
    obtain ⟨bs, hb1, hb2, hb3, hb4⟩ := print_binary_spec n hpos hlt
    refine ⟨bs, ?_, hb2, hb3, hb4⟩
    show some (print_binary (toU64 u (.num (qofN n)))) = some ("0b" ++ String.mk bs)
    rw [toU64_qofN u n hlt, hb1]
    rfl
  · intro u
    exact ⟨rfl, rfl⟩

theorem claim_C9_witness :
    print_result ub0 .dec (.num 42) = some (intDecStr (42 : ℚ).num) ∧
    print_result ub0 .dec (.num (mkRat 3 2)) = some (g12 (mkRat 3 2)) ∧
    (∃ bs, print_result ub0 .bin (.num (qofN 10)) = some ("0b" ++ String.mk bs) ∧
      bs.head? = some '1' ∧ decodeBits bs = 10 ∧ ∀ c ∈ bs, c = '0' ∨ c = '1') :=
  ⟨(claim_C9.2.1 ub0 42 (by decide) (by decide)).1,
   claim_C9.2.2.1 ub0 (mkRat 3 2) (by decide),
   claim_C9.2.2.2.2.1 ub0 10 (by decide) (by decide)⟩

/-- C10: assignment stores the right-hand side's value even when that
value is the not-a-number sentinel — the binding is created or updated
to hold the sentinel and the sentinel is the expression's result; in
particular `x = qq` with `qq` unbound stores x=NaN and returns NaN. -/
theorem claim_C10 :
    (∀ (u : CParams) (vars : List (String × Val)) (fmt0 : Fmt)
      (s name : String) (r0 r1 : List Char),
      nextToken s.data = (.id name, r0) → nextToken r0 = (.op '=', r1) →
      (parseExpr u vars (evalFuel s.data)
        ⟨(nextToken r1).1, (nextToken r1).2, .dec, []⟩).1 = .nan →
      evaluate u vars fmt0 s =
        ⟨.nan, set_var vars name .nan,
         (parseExpr u vars (evalFuel s.data)
           ⟨(nextToken r1).1, (nextToken r1).2, .dec, []⟩).2.fmt,
         (parseExpr u vars (evalFuel s.data)
           ⟨(nextToken r1).1, (nextToken r1).2, .dec, []⟩).2.diags⟩) ∧
    (∀ (vars : List (String × Val)) (name : String) (v : Val),
      name.length ≤ 31 → (vars.length < 64 ∨ name ∈ vars.map Prod.fst) →
      lookupVar (set_var vars name v) name = some v) ∧
    (∀ u : CParams, evaluate u [] .dec "x = qq" =
      ⟨.nan, [("x", .nan)], .dec, ["undefined: qq"]⟩) := by
  refine ⟨?_, lookupVar_set_var, ?_⟩
  · intro u vars fmt0 s name r0 r1 h0 h1 hn
    simp only [evaluate, h0, h1, if_pos rfl]
    rw [hn]
    simp
  · intro u
    exact (evaluate_assign_of_chk (gvTotal []) u [] .dec "x = qq" "x"
      [' ', '=', ' ', 'q', 'q'] [' ', 'q', 'q']
      (.nan, ⟨.tend, [], .dec, ["undefined: qq"]⟩) (gvTotal_ok [])
      (by decide) (by decide) (by decide)).trans (by decide)

theorem claim_C10_witness :
    evaluate ub0 [("y", .num 1)] .dec "x = qq" =
      ⟨.nan, set_var [("y", .num 1)] "x" .nan,
       (parseExpr ub0 [("y", .num 1)] (evalFuel "x = qq".data)
         ⟨(nextToken [' ', 'q', 'q']).1, (nextToken [' ', 'q', 'q']).2,
          .dec, []⟩).2.fmt,
       (parseExpr ub0 [("y", .num 1)] (evalFuel "x = qq".data)
         ⟨(nextToken [' ', 'q', 'q']).1, (nextToken [' ', 'q', 'q']).2,
          .dec, []⟩).2.diags⟩ ∧
    lookupVar (set_var [] "x" .nan) "x" = some .nan :=
  ⟨claim_C10.1 ub0 [("y", .num 1)] .dec "x = qq" "x"
     [' ', '=', ' ', 'q', 'q'] [' ', 'q', 'q']
     (by decide) (by decide) (by decide),
   claim_C10.2.1 [] "x" .nan (by decide) (Or.inl (by decide))⟩

end Termcalc
